import Mathlib

/-!
A shallow embedding of the NAVI code-navigation engine: the call-chain tracer
of `src/tools/trace-call-chain.ts` together with the pieces of
`src/utils/language-detection.ts` that it uses (`detectLanguage`,
`FileSystemHelper.getAllFiles`).  File contents are plain strings, the file
system is a list of `(path, content)` pairs, JavaScript object references are
indices into an explicit heap (`TraceState.heap`), and `Date.now()` is an
external clock sampled at a monotonically increasing tick counter.  All
definitions are executable, so concrete traces evaluate inside the kernel.

The regular expressions of the source are fixed pattern shapes
(`\b NAME \s* \(` and friends); they are embedded as deterministic
character-list matchers whose structure follows each regex literally.
-/

namespace Navi

/-- JavaScript regular-expression word characters: `\w` is `[A-Za-z0-9_]`. -/
def isWordChar (c : Char) : Bool := c.isAlpha || c.isDigit || c == '_'

/-- JavaScript regular-expression whitespace (`\s`), restricted to ASCII. -/
def isSpaceChar (c : Char) : Bool :=
  c == ' ' || c == '\t' || c == '\n' || c == '\r' || c == '\x0b' || c == '\x0c'

/-- Case-insensitive character comparison (the `i` regex flag). -/
def ciEq (a b : Char) : Bool := a.toLower == b.toLower

/-- Consume a literal case-insensitively; return the rest of the input. -/
def eatLitCI : List Char → List Char → Option (List Char)
  | [], cs => some cs
  | _ :: _, [] => none
  | p :: ps, c :: cs => if ciEq p c then eatLitCI ps cs else none

/-- Consume a literal case-sensitively (patterns compiled without `i`). -/
def eatLitCS : List Char → List Char → Option (List Char)
  | [], cs => some cs
  | _ :: _, [] => none
  | p :: ps, c :: cs => if p == c then eatLitCS ps cs else none

/-- `\s*`: greedily drop whitespace. -/
def eatSpaces (cs : List Char) : List Char := cs.dropWhile isSpaceChar

/-- `\s+`: at least one whitespace character, greedily. -/
def eatSpaces1 : List Char → Option (List Char)
  | [] => none
  | c :: cs => if isSpaceChar c then some (eatSpaces cs) else none

/-- Greedy `(\w+)`: the maximal run of word characters (at least one). -/
def eatWord1 : List Char → Option (List Char × List Char)
  | [] => none
  | c :: cs =>
    if isWordChar c then some (c :: cs.takeWhile isWordChar, cs.dropWhile isWordChar)
    else none

/-- `[^)]*\)`: skip to the first closing parenthesis and consume it. -/
def eatCloseParen (cs : List Char) : Option (List Char) :=
  match cs.dropWhile (fun c => c != ')') with
  | ')' :: rest => some rest
  | _ => none

/-- Require one specific character. -/
def expectChar (c : Char) : List Char → Option (List Char)
  | x :: xs => if x == c then some xs else none
  | [] => none

/-- The name slot of a declaration pattern: either a concrete escaped
function name matched literally (case-insensitively, as the patterns carry
the `i` flag), or the capture group `(\w+)`. -/
def eatNamePart (nameArg : Option (List Char)) (cs : List Char) :
    Option (List Char × List Char) :=
  match nameArg with
  | some n => (eatLitCI n cs).map (fun rest => (n, rest))
  | none => eatWord1 cs

/-- `(?:function|async\s+function)\s+NAME\s*\(` at the current position. -/
def jsDeclFnAt (nameArg : Option (List Char)) (cs : List Char) : Option (List Char) := do
  let r ← eatLitCI "function".data cs <|> (do
      let r ← eatLitCI "async".data cs
      let r ← eatSpaces1 r
      eatLitCI "function".data r)
  let r ← eatSpaces1 r
  let (n, r) ← eatNamePart nameArg r
  let r := eatSpaces r
  let _ ← expectChar '(' r
  pure n

/-- `NAME\s*[:=]\s*(?:async\s+)?\([^)]*\)\s*=>` at the current position. -/
def jsDeclArrowAt (nameArg : Option (List Char)) (cs : List Char) : Option (List Char) := do
  let (n, r) ← eatNamePart nameArg cs
  let r := eatSpaces r
  let r ← match r with
    | c :: rest => if c == ':' || c == '=' then some rest else none
    | [] => none
  let r := eatSpaces r
  let r := ((do
      let r2 ← eatLitCI "async".data r
      eatSpaces1 r2 : Option (List Char))).getD r
  let r ← expectChar '(' r
  let r ← eatCloseParen r
  let r := eatSpaces r
  let _ ← eatLitCI "=>".data r
  pure n

/-- `NAME\s*\([^)]*\)\s*\{` at the current position. -/
def jsDeclBraceAt (nameArg : Option (List Char)) (cs : List Char) : Option (List Char) := do
  let (n, r) ← eatNamePart nameArg cs
  let r := eatSpaces r
  let r ← expectChar '(' r
  let r ← eatCloseParen r
  let r := eatSpaces r
  let _ ← expectChar '{' r
  pure n

/-- Scan a line for the leftmost match of an at-position matcher, honouring
the leading `\b`: a position qualifies when the previous character is not a
word character (all pattern heads are word characters). -/
def scanMatch (f : List Char → Option (List Char)) : Bool → List Char → Option (List Char)
  | _, [] => none
  | prevWord, c :: cs =>
    match (if prevWord then none else f (c :: cs)) with
    | some n => some n
    | none => scanMatch f (isWordChar c) cs

/-- `^\s*(?:async\s+)?def\s+NAME\s*\(`, anchored at the start of the line. -/
def pyDeclLine (nameArg : Option (List Char)) (line : List Char) : Option (List Char) := do
  let r := eatSpaces line
  let r := ((do
      let r2 ← eatLitCI "async".data r
      eatSpaces1 r2 : Option (List Char))).getD r
  let r ← eatLitCI "def".data r
  let r ← eatSpaces1 r
  let (n, r) ← eatNamePart nameArg r
  let r := eatSpaces r
  let _ ← expectChar '(' r
  pure n

/-- `^\s*func\s+(?:\([^)]*\)\s+)?NAME\s*\(`, anchored at the start of the line. -/
def goDeclLine (nameArg : Option (List Char)) (line : List Char) : Option (List Char) := do
  let r := eatSpaces line
  let r ← eatLitCI "func".data r
  let r ← eatSpaces1 r
  let r := ((do
      let r2 ← expectChar '(' r
      let r2 ← eatCloseParen r2
      eatSpaces1 r2 : Option (List Char))).getD r
  let (n, r) ← eatNamePart nameArg r
  let r := eatSpaces r
  let _ ← expectChar '(' r
  pure n

/-- The Java access/modifier keyword alternation, tried in the regex's order. -/
def javaKwAt (cs : List Char) : Option (List Char) :=
  eatLitCI "public".data cs <|> eatLitCI "private".data cs <|>
  eatLitCI "protected".data cs <|> eatLitCI "static".data cs <|>
  eatLitCI "final".data cs <|> eatLitCI "abstract".data cs

/-- Search the tail after the Java keyword for `\s+ .* \s+ NAME \s* \(`.
A candidate position `idx ≥ 2` needs a whitespace character immediately
before the name; the greedy `.*` of the regex makes the capture come from
the last viable position, hence later candidates override earlier ones. -/
def javaScanTail (nameArg : Option (List Char)) :
    Nat → Char → List Char → Option (List Char) → Option (List Char)
  | _, _, [], best => best
  | idx, prev, c :: cs, best =>
    let here : Option (List Char) :=
      if 2 ≤ idx && isSpaceChar prev then
        (do
          let (n, r2) ← eatNamePart nameArg (c :: cs)
          let r2 := eatSpaces r2
          let _ ← expectChar '(' r2
          pure n)
      else none
    javaScanTail nameArg (idx + 1) c cs (here <|> best)

/-- `(?:public|...|abstract)\s+.*\s+NAME\s*\(` at the current position. -/
def javaDeclAt (nameArg : Option (List Char)) (cs : List Char) : Option (List Char) := do
  let r ← javaKwAt cs
  match r with
  | [] => none
  | c0 :: rest => if isSpaceChar c0 then javaScanTail nameArg 1 c0 rest none else none

/-- The default pattern `\bNAME\s*\(` at the current position. -/
def defaultDeclAt (nameArg : Option (List Char)) (cs : List Char) : Option (List Char) := do
  let (n, r) ← eatNamePart nameArg cs
  let r := eatSpaces r
  let _ ← expectChar '(' r
  pure n

/-- ASCII lower-casing of a string (`String.prototype.toLowerCase`). -/
def strToLower (s : String) : String := String.mk (s.data.map Char.toLower)

/-- `getFunctionDeclarationPatterns(language, functionName?)`: the ordered
list of line-level declaration matchers for a language, each returning the
name named by the match (`match[1]` of the original patterns). -/
def declPatterns (language : String) (nameArg : Option (List Char)) :
    List (List Char → Option (List Char)) :=
  match strToLower language with
  | "typescript" => [fun line => scanMatch (jsDeclFnAt nameArg) false line,
       fun line => scanMatch (jsDeclArrowAt nameArg) false line,
       fun line => scanMatch (jsDeclBraceAt nameArg) false line]
  | "javascript" => [fun line => scanMatch (jsDeclFnAt nameArg) false line,
       fun line => scanMatch (jsDeclArrowAt nameArg) false line,
       fun line => scanMatch (jsDeclBraceAt nameArg) false line]
  | "python" => [fun line => pyDeclLine nameArg line]
  | "java" => [fun line => scanMatch (javaDeclAt nameArg) false line]
  | "go" => [fun line => goDeclLine nameArg line]
  | _ => [fun line => scanMatch (defaultDeclAt nameArg) false line]

/-- Does any declaration pattern for `language` and the concrete `name`
match this line?  (Used where the source only needs the first match.) -/
def lineMatchesDecl (language name : String) (line : String) : Bool :=
  (declPatterns language (some name.data)).any (fun m => (m line.data).isSome)

/-- The captured function name of the first declaration pattern (in listed
order) matching the line, with the name slot as the capture group `(\w+)`. -/
def lineDeclCapture (language : String) (line : String) : Option String :=
  List.findSome? (fun m => (m line.data).map String.mk) (declPatterns language none)

/-- Number of matches of the call-site pattern `\bNAME\s*\(` (global flag,
case-sensitive) in a line; matching resumes after each match as `matchAll`
does.  The first argument is fuel bounding the scan, always instantiated
with the line length, which suffices because every step consumes input. -/
def callSiteCountAux (name : List Char) : Nat → Bool → List Char → Nat
  | 0, _, _ => 0
  | fuel + 1, prevWord, cs =>
    match cs with
    | [] => 0
    | c :: rest =>
      match (if prevWord then none else (do
          let r ← eatLitCS name cs
          let r := eatSpaces r
          expectChar '(' r)) with
      | some r => 1 + callSiteCountAux name fuel false r
      | none => callSiteCountAux name fuel (isWordChar c) rest

/-- All `matchAll` occurrences of `\bNAME\s*\(` in a line. -/
def callSiteCount (name : String) (line : String) : Nat :=
  callSiteCountAux name.data line.data.length false line.data

/-- One step of the callee-extraction pattern `\b(\w+)\s*\(`. -/
def parseCallToken (cs : List Char) : Option (List Char × List Char) := do
  let (n, r) ← eatWord1 cs
  let r := eatSpaces r
  let r ← expectChar '(' r
  pure (n, r)

/-- All captures of `\b(\w+)\s*\(` (global) over a function body, in match
order; fuel is the body length, sufficient as every step consumes input. -/
def extractCallTokensAux : Nat → Bool → List Char → List (List Char)
  | 0, _, _ => []
  | fuel + 1, prevWord, cs =>
    match cs with
    | [] => []
    | c :: rest =>
      match (if prevWord then none else parseCallToken cs) with
      | some (n, r) => n :: extractCallTokensAux fuel false r
      | none => extractCallTokensAux fuel (isWordChar c) rest

/-- The callee tokens of a body, as strings. -/
def extractCallTokens (body : String) : List String :=
  (extractCallTokensAux body.data.length false body.data).map String.mk

/-- Case-sensitive substring test (`String.prototype.includes`). -/
def containsSub (pat : List Char) : List Char → Bool
  | [] => (eatLitCS pat []).isSome
  | c :: cs => (eatLitCS pat (c :: cs)).isSome || containsSub pat cs

/-- Case-insensitive substring test. -/
def containsSubCI (pat : List Char) : List Char → Bool
  | [] => (eatLitCI pat []).isSome
  | c :: cs => (eatLitCI pat (c :: cs)).isSome || containsSubCI pat cs

/-- `String.prototype.trim`, restricted to ASCII whitespace. -/
def jsTrim (s : String) : String :=
  String.mk (((s.data.dropWhile isSpaceChar).reverse.dropWhile isSpaceChar).reverse)

/-- Split a string at every newline (`content.split('\n')`). -/
def splitLinesAux : List Char → List Char → List String
  | [], acc => [String.mk acc.reverse]
  | c :: cs, acc =>
    if c == '\n' then String.mk acc.reverse :: splitLinesAux cs []
    else splitLinesAux cs (c :: acc)

/-- The lines of a file content. -/
def splitLines (s : String) : List String := splitLinesAux s.data []

/-- Lexicographic string order on character codes: JavaScript's default
`Array.prototype.sort` comparator (UTF-16 code-unit order, which agrees with
code-point order on the paths used here). -/
def strListLe : List Char → List Char → Bool
  | [], _ => true
  | _ :: _, [] => false
  | a :: as, b :: bs =>
    if a.toNat < b.toNat then true
    else if a.toNat = b.toNat then strListLe as bs
    else false

/-- String comparison used for sorting file lists. -/
def strLe (a b : String) : Bool := strListLe a.data b.data

/-- Deduplication keeping first occurrences (`[...new Set(results)]`). -/
def dedupFirstAux : List String → List String → List String
  | _, [] => []
  | seen, x :: xs =>
    if seen.contains x then dedupFirstAux seen xs
    else x :: dedupFirstAux (x :: seen) xs

/-- Deduplicate a list of paths, keeping first occurrences. -/
def dedupFirst (l : List String) : List String := dedupFirstAux [] l

/-- One language entry of `SUPPORTED_LANGUAGES` (the fields the navigation
engine reads: the registry key, display name and extension list). -/
structure LanguageInfo where
  key : String
  name : String
  extensions : List String
deriving DecidableEq, Repr

/-- The `SUPPORTED_LANGUAGES` registry of `language-detection.ts`. -/
def SUPPORTED_LANGUAGES : List LanguageInfo := [
  ⟨"javascript", "JavaScript", ["js", "jsx", "mjs", "cjs"]⟩,
  ⟨"typescript", "TypeScript", ["ts", "tsx", "mts", "cts"]⟩,
  ⟨"python", "Python", ["py", "pyw", "pyi"]⟩,
  ⟨"go", "Go", ["go"]⟩,
  ⟨"java", "Java", ["java"]⟩,
  ⟨"rust", "Rust", ["rs"]⟩,
  ⟨"cpp", "C++", ["cpp", "cxx", "cc", "c++", "hpp", "hxx", "h++"]⟩,
  ⟨"c", "C", ["c", "h"]⟩,
  ⟨"csharp", "C#", ["cs"]⟩,
  ⟨"php", "PHP", ["php", "phtml", "php3", "php4", "php5"]⟩,
  ⟨"ruby", "Ruby", ["rb", "rbw"]⟩,
  ⟨"swift", "Swift", ["swift"]⟩,
  ⟨"kotlin", "Kotlin", ["kt", "kts"]⟩,
  ⟨"scala", "Scala", ["scala", "sc"]⟩,
  ⟨"json", "JSON", ["json", "jsonc", "json5"]⟩,
  ⟨"yaml", "YAML", ["yaml", "yml"]⟩,
  ⟨"xml", "XML", ["xml", "xsd", "xsl", "xslt", "svg"]⟩,
  ⟨"html", "HTML", ["html", "htm", "xhtml"]⟩,
  ⟨"css", "CSS", ["css", "scss", "sass", "less"]⟩,
  ⟨"shell", "Shell", ["sh", "bash", "zsh", "fish"]⟩,
  ⟨"powershell", "PowerShell", ["ps1", "psm1", "psd1"]⟩,
  ⟨"markdown", "Markdown", ["md", "markdown", "mdown", "mkd"]⟩,
  ⟨"sql", "SQL", ["sql", "mysql", "pgsql", "sqlite"]⟩,
  ⟨"dockerfile", "Dockerfile", ["dockerfile"]⟩,
  ⟨"makefile", "Makefile", ["makefile", "mk"]⟩,
  ⟨"dart", "Dart", ["dart"]⟩,
  ⟨"lua", "Lua", ["lua"]⟩,
  ⟨"perl", "Perl", ["pl", "pm", "perl"]⟩,
  ⟨"r", "R", ["r", "R"]⟩]

/-- Does the character list start with the given pattern? -/
def leadsWith (pat cs : List Char) : Bool := (eatLitCS pat cs).isSome

/-- Does the character list end with the given pattern? -/
def trailsWith (pat cs : List Char) : Bool := leadsWith pat.reverse cs.reverse

/-- The basename of a path: everything after the last slash. -/
def lastPartAux : List Char → List Char → List Char
  | [], acc => acc.reverse
  | c :: cs, acc => if c == '/' then lastPartAux cs [] else lastPartAux cs (c :: acc)

/-- `path.basename`. -/
def baseNameOf (p : String) : String := String.mk (lastPartAux p.data [])

/-- The index of the last dot of a character list, if any. -/
def lastDotIdx : List Char → Nat → Option Nat → Option Nat
  | [], _, best => best
  | c :: cs, i, best => lastDotIdx cs (i + 1) (if c == '.' then some i else best)

/-- `extname(filePath).slice(1).toLowerCase()`: the lower-cased characters
after the last dot of the basename; empty when there is no dot or the dot is
the first character of the basename (dot-files). -/
def extOf (p : String) : String :=
  let b := (baseNameOf p).data
  match lastDotIdx b 0 none with
  | none => ""
  | some 0 => ""
  | some i => strToLower (String.mk (b.drop (i + 1)))

/-- `detectLanguage`, extension branch: the first registry entry whose
extension list contains the extension.  The special-filename and shebang
fallbacks of the source are not modelled (every corpus handled here names
files with extensions; those fallbacks, too, only return registry entries or
the capitalised name `Text`). -/
def detectLanguage (filePath : String) : Option LanguageInfo :=
  let extension := extOf filePath
  if extension == "" then none
  else SUPPORTED_LANGUAGES.find? (fun l => l.extensions.contains extension)

/-- The private `extensionMap` of the tracer (distinct from the registry). -/
def extensionMapLookup (lang : String) : Option (List String) :=
  match strToLower lang with
  | "javascript" => some ["js", "jsx", "mjs"]
  | "typescript" => some ["ts", "tsx"]
  | "python" => some ["py", "pyx"]
  | "java" => some ["java"]
  | "go" => some ["go"]
  | "rust" => some ["rs"]
  | "cpp" => some ["cpp", "cc", "cxx", "c++", "c"]
  | "csharp" => some ["cs"]
  | _ => none

/-- `getExtensionsForLanguages`. -/
def getExtensionsForLanguages (languages : List String) : List String :=
  let extensions := languages.foldl
    (fun acc lang => acc ++ ((extensionMapLookup lang).getD [])) []
  if extensions.length > 0 then extensions else []

/-- One file of the corpus: an absolute path and its content. -/
structure SourceFile where
  path : String
  content : String
deriving DecidableEq, Repr

/-- `fs.readFile`: the content at an exact path, `none` when absent
(the `catch` branches of the source observe exactly this). -/
def readFile (corpus : List SourceFile) (p : String) : Option String :=
  (corpus.find? (fun f => f.path == p)).map (fun f => f.content)

/-- Is `p` strictly below the root directory?  Models glob's `cwd: rootPath`
with the recursive patterns `getAllFiles` builds. -/
def underRoot (root p : String) : Bool := leadsWith (root.data ++ ['/']) p.data

/-- One glob pattern as built by `getAllFiles`: either `**/*` (every file
below the root) or `**/*.EXT` (extension-filtered). -/
def globMatches (pat : String) (root : String) (p : String) : Bool :=
  if pat == "**/*" then underRoot root p
  else match pat.data with
    | '*' :: '*' :: '/' :: '*' :: rest => underRoot root p && trailsWith rest p.data
    | _ => false

/-- `FileSystemHelper.getAllFiles` composed with `findFiles`: build one glob
pattern per requested extension (or the catch-all), collect the matches,
deduplicate (`new Set`) and sort (`Array.sort`, default comparator).  The
tool's `excludePatterns` configuration is modelled as empty. -/
def getAllFiles (corpus : List SourceFile) (rootPath : String)
    (extensions : Option (List String)) : List String :=
  let patterns := match extensions with
    | some exts => exts.map (fun ext => "**/*." ++ ext)
    | none => ["**/*"]
  let results := (patterns.map (fun pat =>
    (corpus.filter (fun f => globMatches pat rootPath f.path)).map (fun f => f.path))).flatten
  List.insertionSort (fun a b => strLe a b = true) (dedupFirst results)

/-- `CallChainNode` of `types/index.ts`.  `callers` and `callees` hold heap
indices standing for the object references of the original. -/
structure CallChainNode where
  functionName : String
  path : String
  line : Nat
  signature : String
  language : String
  callers : List Nat
  callees : List Nat
  depth : Nat
deriving DecidableEq, Repr, Inhabited

/-- The mutable per-request state: the object heap, the `functionCache`, the
`visited` set of the current traversal, and the tick counter of `Date.now()`
calls. -/
structure TraceState where
  heap : List CallChainNode
  functionCache : List (String × Nat)
  visited : List String
  tick : Nat
deriving DecidableEq, Repr

/-- The state at the start of a request (`functionCache.clear()` has run). -/
def initState : TraceState := ⟨[], [], [], 0⟩

/-- The environment of a trace: the file corpus and the wall clock, sampled
at successive `Date.now()` calls. -/
structure TraceEnv where
  corpus : List SourceFile
  clock : Nat → Nat

/-- The `direction` enumeration of `TraceCallChainSchema`. -/
inductive Direction
  | callers
  | callees
  | both
deriving DecidableEq, Repr

/-- `TraceCallChainInput` after schema validation: `direction` defaults to
`both`, `maxDepth` to `5`, `includeExternal` to `false`.  `maxDepth` is a
natural number (the interface documents it as a positive integer). -/
structure TraceCallChainInput where
  functionName : String
  path : String
  direction : Direction
  maxDepth : Nat
  languages : Option (List String)
  includeExternal : Bool
deriving Repr

/-- Dereference a heap index (indices are valid by construction). -/
def heapGet (h : List CallChainNode) (i : Nat) : CallChainNode := h.getD i default

/-- Create a fresh object on the heap, returning its reference. -/
def allocNode (s : TraceState) (nd : CallChainNode) : Nat × TraceState :=
  (s.heap.length, { s with heap := s.heap ++ [nd] })

/-- `Date.now()`: sample the clock at the current tick. -/
def dateNow (env : TraceEnv) (s : TraceState) : Nat × TraceState :=
  (env.clock s.tick, { s with tick := s.tick + 1 })

/-- The memoization key of `findFunction`. -/
def cacheKeyOf (functionName searchPath : String) : String :=
  functionName ++ ":" ++ searchPath

/-- `path.relative(rootPath, filePath)` for files below the root — the only
shape the corpus walker produces here. -/
def relativePath (rootPath filePath : String) : String :=
  if underRoot rootPath filePath then
    String.mk (filePath.data.drop (rootPath.data.length + 1))
  else filePath

/-- `resolveFullPath`. -/
def resolveFullPath (relPath rootPath : String) : String :=
  if leadsWith ['/'] relPath.data then relPath else rootPath ++ "/" ++ relPath

/-- The running `(` minus `)` balance of a line. -/
def lineParenDelta (line : String) : Int :=
  line.data.foldl (fun n c => if c == '(' then n + 1 else if c == ')' then n - 1 else n) 0

/-- The loop of `extractFunctionSignature`: scan at most three lines
(`i < lineIndex + 3`), append the trimmed continuation lines, and stop when
the parentheses balance and the line opens a body (`{` or `=>`). -/
def sigStep (allLines : List String) (lineIndex : Nat) :
    Nat → Nat → Int → String → String
  | 0, _, _, sig => sig
  | fuel + 1, i, parenCount, sig =>
    if i < allLines.length then
      let line := allLines.getD i ""
      if line == "" then sigStep allLines lineIndex fuel (i + 1) parenCount sig
      else
        let parenCount := parenCount + lineParenDelta line
        let sig := if lineIndex < i then sig ++ " " ++ jsTrim line else sig
        if parenCount == 0 && (containsSub ['{'] line.data || containsSub ['=', '>'] line.data)
        then sig
        else sigStep allLines lineIndex fuel (i + 1) parenCount sig
    else sig

/-- `extractFunctionSignature`. -/
def extractFunctionSignature (currentLine : String) (allLines : List String)
    (lineIndex : Nat) : String :=
  sigStep allLines lineIndex 3 lineIndex 0 (jsTrim currentLine)

/-- The shared line scan of `searchFunctionInFile` and
`findFunctionDefinition`: the first (lowest-index) non-empty line matching
any declaration pattern for the name. -/
def firstDeclLine (language functionName : String) : List String → Nat → Option Nat
  | [], _ => none
  | line :: rest, i =>
    if line == "" then firstDeclLine language functionName rest (i + 1)
    else if lineMatchesDecl language functionName line then some i
    else firstDeclLine language functionName rest (i + 1)

/-- `searchFunctionInFile`: the node for the first declaration of
`functionName` in one file, `none` when the file is unreadable or contains
no match. -/
def searchFunctionInFile (corpus : List SourceFile)
    (filePath functionName language rootPath : String) : Option CallChainNode :=
  match readFile corpus filePath with
  | none => none
  | some content =>
    let lines := splitLines content
    match firstDeclLine language functionName lines 0 with
    | none => none
    | some i =>
      let line := lines.getD i ""
      some { functionName := functionName
             path := relativePath rootPath filePath
             line := i + 1
             signature := extractFunctionSignature line lines i
             language := language
             callers := []
             callees := []
             depth := 0 }

/-- The file-skipping test of `findFunction` and `findCallers`: with a
non-empty language filter, skip files whose detected language is absent or
whose lower-cased display name is not listed. -/
def languagesSkip (languages : Option (List String)) (language : Option LanguageInfo) : Bool :=
  match languages with
  | none => false
  | some ls =>
    if ls.length > 0 then
      match language with
      | none => true
      | some info => !(ls.contains (strToLower info.name))
    else false

/-- `language?.name || 'Unknown'`. -/
def langNameOf (language : Option LanguageInfo) : String :=
  match language with
  | some info => info.name
  | none => "Unknown"

/-- The file loop of `findFunction`: try each candidate file in order and
return the first hit. -/
def findFirstDecl (corpus : List SourceFile) (functionName searchPath : String)
    (languages : Option (List String)) : List String → Option CallChainNode
  | [] => none
  | filePath :: rest =>
    let language := detectLanguage filePath
    if languagesSkip languages language then
      findFirstDecl corpus functionName searchPath languages rest
    else match searchFunctionInFile corpus filePath functionName (langNameOf language) searchPath with
      | some nd => some nd
      | none => findFirstDecl corpus functionName searchPath languages rest

/-- `findFunction`: memoized corpus-wide resolution.  On a cache miss the
candidate files are enumerated (extension-filtered when a language filter is
given), the first declaration hit is allocated on the heap and memoized under
`name:searchPath`. -/
def findFunction (env : TraceEnv) (functionName searchPath : String)
    (languages : Option (List String)) (s : TraceState) : Option Nat × TraceState :=
  let key := cacheKeyOf functionName searchPath
  match s.functionCache.find? (fun e => e.1 == key) with
  | some e => (some e.2, s)
  | none =>
    let extensions := languages.map getExtensionsForLanguages
    let allFiles := getAllFiles env.corpus searchPath extensions
    match findFirstDecl env.corpus functionName searchPath languages allFiles with
    | some nd =>
      let (id, s) := allocNode s nd
      (some id, { s with functionCache := s.functionCache ++ [(key, id)] })
    | none => (none, s)

/-- One backward step of `findContainingFunction`: test line `i` against the
capture-form declaration patterns. -/
def containingCheckLine (lines : List String) (language : String) (i : Nat) :
    Option (String × Nat × String) :=
  let line := lines.getD i ""
  if line == "" then none
  else (lineDeclCapture language line).map
    (fun name => (name, i + 1, extractFunctionSignature line lines i))

/-- The backward scan of `findContainingFunction`, from index `i` down to 0. -/
def findContainingFunctionAux (lines : List String) (language : String) :
    Nat → Option (String × Nat × String)
  | 0 => containingCheckLine lines language 0
  | i + 1 =>
    match containingCheckLine lines language (i + 1) with
    | some r => some r
    | none => findContainingFunctionAux lines language i

/-- `findContainingFunction`: the nearest enclosing function-like declaration
at or above a source position — name, 1-based line, signature. -/
def findContainingFunction (lines : List String) (lineIndex : Nat) (language : String) :
    Option (String × Nat × String) :=
  findContainingFunctionAux lines language lineIndex

/-- The per-file caller dedup test (`callers.find(...)` of the source). -/
def callerDedupHit (callers : List CallChainNode) (name relPath : String) : Bool :=
  callers.any (fun c => c.functionName == name && c.path == relPath)

/-- The body of the `matchAll` loop of `findCallersInFile`, run once per
call-site occurrence on the line: attribute the occurrence to its enclosing
function, drop self-calls, and push a fresh caller node unless one with the
same name and path was already collected. -/
def processCallOccs (lines : List String) (functionName language relPath : String)
    (i : Nat) : Nat → List CallChainNode → List CallChainNode
  | 0, callers => callers
  | k + 1, callers =>
    let callers :=
      match findContainingFunction lines i language with
      | some (name, defLine, sig) =>
        if name != functionName && !(callerDedupHit callers name relPath) then
          callers ++ [⟨name, relPath, defLine, sig, language, [], [], 0⟩]
        else callers
      | none => callers
    processCallOccs lines functionName language relPath i k callers

/-- The line loop of `findCallersInFile`. -/
def findCallersInFileLoop (lines : List String) (functionName language relPath : String) :
    List String → Nat → List CallChainNode → List CallChainNode
  | [], _, callers => callers
  | line :: rest, i, callers =>
    if line == "" then
      findCallersInFileLoop lines functionName language relPath rest (i + 1) callers
    else
      let callers := processCallOccs lines functionName language relPath i
        (callSiteCount functionName line) callers
      findCallersInFileLoop lines functionName language relPath rest (i + 1) callers

/-- `findCallersInFile`: every function of one file containing a textual
call site of `functionName`, deduplicated by (name, path); fresh nodes. -/
def findCallersInFile (corpus : List SourceFile)
    (filePath functionName language rootPath : String) : List CallChainNode :=
  match readFile corpus filePath with
  | none => []
  | some content =>
    let lines := splitLines content
    findCallersInFileLoop lines functionName language (relativePath rootPath filePath) lines 0 []

/-- `findFunctionEnd`'s inner character scan of one line: returns the updated
brace balance, the updated `inFunction` flag, and whether the function end was
reached on this line. -/
def lineBraceScan : List Char → Int → Bool → Int × Bool × Bool
  | [], n, inF => (n, inF, false)
  | c :: cs, n, inF =>
    if c == '{' then lineBraceScan cs (n + 1) true
    else if c == '}' then
      if inF && n - 1 == 0 then (n - 1, inF, true)
      else lineBraceScan cs (n - 1) inF
    else lineBraceScan cs n inF

/-- The line loop of `findFunctionEnd`. -/
def findFunctionEndLoop : List String → Nat → Int → Bool → Option Nat
  | [], _, _, _ => none
  | line :: rest, i, n, inF =>
    if line == "" then findFunctionEndLoop rest (i + 1) n inF
    else
      match lineBraceScan line.data n inF with
      | (n', inF', hit) =>
        if hit then some i else findFunctionEndLoop rest (i + 1) n' inF'

/-- `findFunctionEnd`: brace-balance isolation of a function body starting at
`startLine` — the first line on which the balance, having opened, returns to
zero; if that never happens in the rest of the file, the capped fallback
`min (startLine + 50) (lines.length - 1)`.  (With a non-empty `lines`, the
natural subtraction agrees with the source.) -/
def findFunctionEnd (lines : List String) (startLine : Nat) : Nat :=
  match findFunctionEndLoop (lines.drop startLine) startLine 0 false with
  | some i => i
  | none => min (startLine + 50) (lines.length - 1)

/-- `findFunctionDefinition`: the span (startLine, endLine) of the first
declaration of `functionName`. -/
def findFunctionDefinition (lines : List String) (functionName language : String) :
    Option (Nat × Nat) :=
  (firstDeclLine language functionName lines 0).map
    (fun i => (i, findFunctionEnd lines i))

/-- `extractFunctionBody`: `lines.slice(startLine, endLine + 1).join('\n')`. -/
def joinWithNewlines : List String → String
  | [] => ""
  | [l] => l
  | l :: ls => l ++ "\n" ++ joinWithNewlines ls

/-- The body text of a function given its line span. -/
def extractFunctionBody (lines : List String) (startLine endLine : Nat) : String :=
  joinWithNewlines ((lines.drop startLine).take (endLine + 1 - startLine))

/-- The placeholder node for an unresolved callee: `path="external"`,
`language="unknown"`. -/
def placeholderNode (name : String) : CallChainNode :=
  ⟨name, "external", 0, name ++ "()", "unknown", [], [], 0⟩

/-- The token loop of `findCalleesInFile`: skip the function's own name and
every name already handled (`foundCallees`), resolve the rest corpus-wide and
fall back to a placeholder node when resolution fails. -/
def resolveCalleeTokens (env : TraceEnv) (functionName rootPath language : String) :
    List String → List String → List Nat → TraceState → List Nat × TraceState
  | [], _, acc, s => (acc, s)
  | t :: ts, found, acc, s =>
    if t != functionName && !(found.contains t) then
      match findFunction env t rootPath (some [language]) s with
      | (some id, s) =>
        resolveCalleeTokens env functionName rootPath language ts (t :: found) (acc ++ [id]) s
      | (none, s) =>
        let (id, s) := allocNode s (placeholderNode t)
        resolveCalleeTokens env functionName rootPath language ts (t :: found) (acc ++ [id]) s
    else resolveCalleeTokens env functionName rootPath language ts found acc s

/-- `findCalleesInFile`: isolate the body of `functionName` inside one file,
extract its call tokens, and resolve each (first) occurrence. -/
def findCalleesInFile (env : TraceEnv) (filePath functionName language rootPath : String)
    (s : TraceState) : List Nat × TraceState :=
  match readFile env.corpus filePath with
  | none => ([], s)
  | some content =>
    let lines := splitLines content
    match findFunctionDefinition lines functionName language with
    | none => ([], s)
    | some (startLine, endLine) =>
      let body := extractFunctionBody lines startLine endLine
      resolveCalleeTokens env functionName rootPath language (extractCallTokens body) [] [] s

/-- Overwrite the `depth` field of a heap node. -/
def setNodeDepth (s : TraceState) (i depth : Nat) : TraceState :=
  { s with heap := s.heap.set i { heapGet s.heap i with depth := depth } }

/-- `node.callers.push(callerId)`. -/
def pushCaller (s : TraceState) (node callerId : Nat) : TraceState :=
  let nd := heapGet s.heap node
  { s with heap := s.heap.set node { nd with callers := nd.callers ++ [callerId] } }

/-- `node.callees.push(calleeId)`. -/
def pushCallee (s : TraceState) (node calleeId : Nat) : TraceState :=
  let nd := heapGet s.heap node
  { s with heap := s.heap.set node { nd with callees := nd.callees ++ [calleeId] } }

/-- `visited.add`. -/
def addVisited (s : TraceState) (key : String) : TraceState :=
  { s with visited := key :: s.visited }

/-- `visited.delete`. -/
def eraseVisited (s : TraceState) (key : String) : TraceState :=
  { s with visited := s.visited.erase key }

/-- The cycle-guard key `path:functionName:currentDepth`. -/
def nodeKeyOf (nd : CallChainNode) (currentDepth : Nat) : String :=
  nd.path ++ ":" ++ nd.functionName ++ ":" ++ toString currentDepth

/-- `findCallers`: timeout check, depth bound, cycle guard, then a scan of the
whole filtered corpus; every discovered caller is attached with depth
`currentDepth + 1` and recursively expanded while `currentDepth + 1` is below
`maxDepth`; the visited key is removed on exit.  The first argument is fuel,
always at least `maxDepth - currentDepth + 1`, so the structural recursion
reproduces the source's depth-guarded recursion exactly. -/
def findCallers (env : TraceEnv) (input : TraceCallChainInput) :
    Nat → Nat → Nat → Nat → Nat → TraceState → TraceState
  | 0, _, _, _, _, s => s
  | fuel + 1, nodeId, currentDepth, startTime, timeout, s =>
    let (now, s) := dateNow env s
    if timeout < now - startTime then s
    else if input.maxDepth ≤ currentDepth then s
    else
      let node := heapGet s.heap nodeId
      let nodeKey := nodeKeyOf node currentDepth
      if s.visited.contains nodeKey then s
      else
        let s := addVisited s nodeKey
        let allFiles := getAllFiles env.corpus input.path
          (input.languages.map getExtensionsForLanguages)
        let s := allFiles.foldl (fun s filePath =>
          let language := detectLanguage filePath
          if languagesSkip input.languages language then s
          else
            let callers := findCallersInFile env.corpus filePath node.functionName
              (langNameOf language) input.path
            callers.foldl (fun s caller =>
              let (callerId, s) := allocNode s caller
              let s := setNodeDepth s callerId (currentDepth + 1)
              let s := pushCaller s nodeId callerId
              if currentDepth + 1 < input.maxDepth then
                findCallers env input fuel callerId (currentDepth + 1) startTime timeout s
              else s) s) s
        eraseVisited s nodeKey

/-- `findCallees`: timeout check, depth bound, cycle guard, then callee
discovery in the node's own file; every callee reference (resolved or
placeholder) is attached with depth `currentDepth + 1` and recursively
expanded while below `maxDepth`; the visited key is removed on exit.  Fuel as
in `findCallers`. -/
def findCallees (env : TraceEnv) (input : TraceCallChainInput) :
    Nat → Nat → Nat → Nat → Nat → TraceState → TraceState
  | 0, _, _, _, _, s => s
  | fuel + 1, nodeId, currentDepth, startTime, timeout, s =>
    let (now, s) := dateNow env s
    if timeout < now - startTime then s
    else if input.maxDepth ≤ currentDepth then s
    else
      let node := heapGet s.heap nodeId
      let nodeKey := nodeKeyOf node currentDepth
      if s.visited.contains nodeKey then s
      else
        let s := addVisited s nodeKey
        let fullPath := resolveFullPath node.path input.path
        let (callees, s) := findCalleesInFile env fullPath node.functionName node.language
          input.path s
        let s := callees.foldl (fun s calleeId =>
          let s := setNodeDepth s calleeId (currentDepth + 1)
          let s := pushCallee s nodeId calleeId
          if currentDepth + 1 < input.maxDepth then
            findCallees env input fuel calleeId (currentDepth + 1) startTime timeout s
          else s) s
        eraseVisited s nodeKey

/-- `traceCallChain`: resolve the root (returning `none` — the NotFound
outcome — when it is absent), reset the traversal's visited set, take the
start time, and expand the caller and/or callee subtrees with the 30000 ms
timeout constant. -/
def traceCallChain (env : TraceEnv) (input : TraceCallChainInput) (s : TraceState) :
    Option Nat × TraceState :=
  match findFunction env input.functionName input.path input.languages s with
  | (none, s) => (none, s)
  | (some rootId, s) =>
    let s := { s with visited := [] }
    let (startTime, s) := dateNow env s
    let timeout := 30000
    let s := if input.direction = Direction.callers ∨ input.direction = Direction.both then
        findCallers env input (input.maxDepth + 1) rootId 0 startTime timeout s
      else s
    let s := if input.direction = Direction.callees ∨ input.direction = Direction.both then
        findCallees env input (input.maxDepth + 1) rootId 0 startTime timeout s
      else s
    (some rootId, s)

/-- `countNodes`: the size of the tree unfolding from a node, fuelled.  The
source recursion has no cycle protection; `none` (fuel exhausted on every
budget) corresponds to the stack overflow it would reach on a cyclic object
graph. -/
def countNodes (h : List CallChainNode) : Nat → Option Nat → Option Nat
  | _, none => some 0
  | 0, some _ => none
  | fuel + 1, some id =>
    let nd := heapGet h id
    (nd.callers ++ nd.callees).foldl (fun acc j =>
      match acc with
      | none => none
      | some n => (countNodes h fuel (some j)).map (fun m => n + m)) (some 1)

/-- `'  '.repeat(depth)`. -/
def repeatStr (s : String) (n : Nat) : String := String.join (List.replicate n s)

/-- `renderCallTree`, fuelled like `countNodes`. -/
def renderCallTree (h : List CallChainNode) : Nat → List Nat → String → Nat → String
  | 0, _, _, _ => ""
  | fuel + 1, nodes, icon, depth =>
    let indent := repeatStr "  " depth
    nodes.foldl (fun result id =>
      let node := heapGet h id
      let result := result ++ indent ++ icon ++ " **" ++ node.functionName ++ "** (`"
        ++ node.path ++ ":" ++ toString node.line ++ "`)\n"
      let result := result ++ indent ++ "   `" ++ node.signature ++ "`\n"
      let result := if node.callers.length > 0 then
          result ++ renderCallTree h fuel node.callers "📞" (depth + 1)
        else result
      let result := if node.callees.length > 0 then
          result ++ renderCallTree h fuel node.callees "📤" (depth + 1)
        else result
      result ++ "\n") ""

/-- The `direction` word used in the report header. -/
def directionWord : Direction → String
  | Direction.callers => "callers"
  | Direction.callees => "callees"
  | Direction.both => "both"

/-- `generateReport`: the markdown report; a `none` call chain yields the
well-formed "Function Not Found" document. -/
def generateReport (h : List CallChainNode) (renderFuel : Nat) (callChain : Option Nat)
    (input : TraceCallChainInput) : String :=
  let report := "# 🔗 Call Chain Analysis\n\n"
    ++ "**Function:** `" ++ input.functionName ++ "`\n"
    ++ "**Search Path:** `" ++ input.path ++ "`\n"
    ++ "**Direction:** " ++ directionWord input.direction ++ "\n"
    ++ "**Max Depth:** " ++ toString input.maxDepth ++ "\n\n"
  match callChain with
  | none =>
    report ++ "## ❌ Function Not Found\n\n"
      ++ "The function `" ++ input.functionName ++ "` was not found in the specified path.\n"
  | some rootId =>
    let node := heapGet h rootId
    let report := report ++ "## 🎯 Root Function\n\n"
      ++ "**Location:** `" ++ node.path ++ ":" ++ toString node.line ++ "`\n"
      ++ "**Language:** " ++ node.language ++ "\n"
      ++ "**Signature:** `" ++ node.signature ++ "`\n\n"
    let report := if input.direction = Direction.callers ∨ input.direction = Direction.both then
        report ++ "## 📞 Callers\n\n"
          ++ (if node.callers.length > 0 then renderCallTree h renderFuel node.callers "📞" 0
              else "No callers found.\n\n")
      else report
    let report := if input.direction = Direction.callees ∨ input.direction = Direction.both then
        report ++ "## 📤 Callees\n\n"
          ++ (if node.callees.length > 0 then renderCallTree h renderFuel node.callees "📤" 0
              else "No callees found.\n\n")
      else report
    report

/-! ### Concrete corpora used by the scenario evaluations -/

/-- The §8 scenario corpus: one file defining the mutually recursive pair
`b` and `c`. -/
def cyclicCorpus : List SourceFile :=
  [⟨"p/a.js", "function b(){ c(); }\nfunction c(){ b(); }"⟩]

/-- A clock that never advances: no timeout can fire. -/
def steadyClock : Nat → Nat := fun _ => 0

/-- Environment of the §8 scenario. -/
def cyclicEnv : TraceEnv := ⟨cyclicCorpus, steadyClock⟩

/-- `trace("b", direction=callees, maxDepth=3)` over root `p`. -/
def calleeTraceInput : TraceCallChainInput :=
  ⟨"b", "p", Direction.callees, 3, none, false⟩

/-- A corpus containing a file literally named `external` under the root:
the path every placeholder node carries.  Reading it back through a
placeholder lets the resolution cache hand the root object out again. -/
def aliasCorpus : List SourceFile :=
  [⟨"p/a.js", "function b(){ c(); }"⟩,
   ⟨"p/external", "function c(){ b(); }"⟩]

/-- Environment over `aliasCorpus`. -/
def aliasEnv : TraceEnv := ⟨aliasCorpus, steadyClock⟩

/-- A body whose extraction tokens include the keyword `if`. -/
def keywordCorpus : List SourceFile :=
  [⟨"p/k.js", "function b(){ if (x) { c(); } }"⟩]

/-- Environment over `keywordCorpus`. -/
def keywordEnv : TraceEnv := ⟨keywordCorpus, steadyClock⟩

/-- A caller corpus: `g` calls `f`, and `f` calls itself. -/
def recursiveCallerCorpus : List SourceFile :=
  [⟨"p/m.js", "function g(){ f(); }\nfunction f(){ f(); }"⟩]

/-- A clock reaching exactly 30000 ms elapsed at the first expansion check
(tick 0 is the trace's start time). -/
def boundaryClockEnv : TraceEnv :=
  ⟨cyclicCorpus, fun t => if t == 0 then 0 else 30000⟩

/-! ### Claim theorems -/

/-- C1: evaluation of the code at the claimed scenario.  The trace does
return a bounded two-node tree in bounded time (`countNodes` succeeds), but
the callee `c` is attached as an unresolved placeholder — `path="external"`,
`language="unknown"`, no children — rather than being resolved to its
in-corpus definition; `c.callees` is empty instead of `[b]`, and the cycle
guard is never exercised.  The cause: `findFunction` filters files with
`languages.includes(language.name.toLowerCase())` while `findCalleesInFile`
passes the capitalised detected name (`JavaScript`), so in-corpus callee
resolution can never succeed. -/
theorem c1_cyclic_scenario_evaluation :
    (traceCallChain cyclicEnv calleeTraceInput initState).1 = some 0 ∧
    (traceCallChain cyclicEnv calleeTraceInput initState).2.heap =
      [⟨"b", "a.js", 1, "function b(){ c(); }", "JavaScript", [], [1], 0⟩,
       ⟨"c", "external", 0, "c()", "unknown", [], [], 1⟩] ∧
    countNodes (traceCallChain cyclicEnv calleeTraceInput initState).2.heap 10 (some 0) =
      some 2 := by
  refine ⟨by decide, by decide, by decide⟩

/-- C2 counterexample: over `aliasCorpus` the returned tree aliases the root
object inside its own descendants.  Node 0 is the traversal root, node 1 is
its callee, and node 0 itself sits in node 1's `callees` list — one mutable
node at two positions on one ancestor chain, exactly what the claim rules
out.  The mutation consequence is visible: attaching the root at depth 2
overwrote its `depth` field from 0 to 2. -/
theorem c2_root_aliased_counterexample :
    (traceCallChain aliasEnv calleeTraceInput initState).1 = some 0 ∧
    (heapGet (traceCallChain aliasEnv calleeTraceInput initState).2.heap 0).callees =
      [1, 2] ∧
    (heapGet (traceCallChain aliasEnv calleeTraceInput initState).2.heap 1).callees =
      [0] ∧
    (heapGet (traceCallChain aliasEnv calleeTraceInput initState).2.heap 0).depth = 2 := by
  refine ⟨by decide, by decide, by decide, by decide⟩

/-- C3 counterexample: over `aliasCorpus` the traversal root — reached by the
empty path, zero caller/callee edges — ends the trace with `depth = 2`, so
`node.depth` does not equal the number of edges from the root to the node's
position. -/
theorem c3_root_depth_counterexample :
    (traceCallChain aliasEnv calleeTraceInput initState).1 = some 0 ∧
    (heapGet (traceCallChain aliasEnv calleeTraceInput initState).2.heap 0).depth ≠ 0 := by
  refine ⟨by decide, by decide⟩

/-- C4 counterexample: with the default inputs (no `includeBuiltins` exists
anywhere in the tool's schema), the JavaScript keyword `if` is attached as a
callee node of `b`: no keyword/builtin denylist is applied to extracted
callee names. -/
theorem c4_keyword_callee_counterexample :
    (traceCallChain keywordEnv calleeTraceInput initState).1 = some 0 ∧
    1 ∈ (heapGet (traceCallChain keywordEnv calleeTraceInput initState).2.heap 0).callees ∧
    (heapGet (traceCallChain keywordEnv calleeTraceInput initState).2.heap 1).functionName =
      "if" := by
  refine ⟨by decide, by decide, by decide⟩

/-- C5 counterexample: flipping `includeExternal` changes nothing — the two
traces are equal as whole states — although the result contains an external
placeholder (node 1) even with `includeExternal = false`.  The input field is
validated but never read by the tracer. -/
theorem c5_include_external_ignored_counterexample :
    traceCallChain cyclicEnv calleeTraceInput initState =
      traceCallChain cyclicEnv
        ⟨"b", "p", Direction.callees, 3, none, true⟩ initState ∧
    (heapGet (traceCallChain cyclicEnv calleeTraceInput initState).2.heap 1).path =
      "external" := by
  refine ⟨by decide, by decide⟩

/-- C6 counterexample: with a clock whose elapsed time has exactly reached
the 30000 ms constant at the first expansion check (`clock 1 - clock 0 =
30000`), expansion still proceeds — the root acquires a callee — because the
source tests `Date.now() - startTime > timeout` strictly. -/
theorem c6_timeout_boundary_counterexample :
    boundaryClockEnv.clock 1 - boundaryClockEnv.clock 0 = 30000 ∧
    (heapGet (traceCallChain boundaryClockEnv calleeTraceInput initState).2.heap 0).callees =
      [1] := by
  refine ⟨by decide, by decide⟩

/-- The 102-line file whose function brace closes only at line 100. -/
def lateCloseLines : List String :=
  "\x7b" :: (List.replicate 99 "x" ++ ["\x7d", "tail"])

/-- C7 counterexample: the brace scan is not bounded by the ≈50-line window —
the balance first returns to zero at line 100, far past `startLine + 50`, and
`findFunctionEnd` returns 100 rather than capping there.  The cap applies
only when the balance never closes in the whole remaining file. -/
theorem c7_scan_window_counterexample :
    findFunctionEnd lateCloseLines 0 = 100 ∧ 0 + 50 < 100 := by
  refine ⟨by decide, by decide⟩

/-- C6 (amended): once the elapsed wall clock strictly exceeds the timeout
argument (the tracer passes the unexposed 30000 ms constant), entering either
expansion function returns at once: the state is unchanged apart from the
tick of the `Date.now()` sample itself, so every already-discovered node is
kept and the partial result stays structurally valid; both functions are
total, so the trace can neither throw nor hang.  At elapsed time exactly
equal to the constant the check does not fire (see the counterexample). -/
theorem c6_strict_timeout_stops_expansion (env : TraceEnv) (input : TraceCallChainInput)
    (fuel nodeId currentDepth startTime timeout : Nat) (s : TraceState)
    (h : timeout < env.clock s.tick - startTime) :
    findCallers env input (fuel + 1) nodeId currentDepth startTime timeout s =
      { s with tick := s.tick + 1 } ∧
    findCallees env input (fuel + 1) nodeId currentDepth startTime timeout s =
      { s with tick := s.tick + 1 } := by
  constructor
  · simp [findCallers, dateNow, h]
  · simp [findCallees, dateNow, h]

/-- An environment whose clock is far beyond the timeout from the start. -/
def lateClockEnv : TraceEnv := ⟨cyclicCorpus, fun _ => 40000⟩

/-- Witness for the amended C6 theorem at a concrete expired clock. -/
theorem c6_strict_timeout_stops_expansion_witness :
    findCallers lateClockEnv calleeTraceInput 4 0 0 0 30000 initState =
      { initState with tick := initState.tick + 1 } ∧
    findCallees lateClockEnv calleeTraceInput 4 0 0 0 30000 initState =
      { initState with tick := initState.tick + 1 } :=
  c6_strict_timeout_stops_expansion lateClockEnv calleeTraceInput 3 0 0 0 30000 initState
    (by decide)

/-- Every caller node pushed by the occurrence loop keeps the invariant that
its name differs from the traced function's name. -/
theorem processCallOccs_name_ne (lines : List String) (fn lang rel : String) (i : Nat) :
    ∀ (k : Nat) (callers : List CallChainNode),
      (∀ c ∈ callers, c.functionName ≠ fn) →
      ∀ c ∈ processCallOccs lines fn lang rel i k callers, c.functionName ≠ fn := by
  intro k
  induction k with
  | zero => intro callers hc c hmem; exact hc c hmem
  | succ k ih =>
    intro callers hc c hmem
    refine ih _ ?_ c hmem
    intro c' hc'
    simp only [processCallOccs] at hc' ⊢
    rcases hfc : findContainingFunction lines i lang with _ | ⟨name, defLine, sig⟩
    · rw [hfc] at hc'; exact hc c' hc'
    · rw [hfc] at hc'
      simp only [] at hc'
      by_cases hcond : (name != fn && !callerDedupHit callers name rel) = true
      · rw [if_pos hcond] at hc'
        rcases List.mem_append.mp hc' with hmem' | hmem'
        · exact hc c' hmem'
        · have hne : (name != fn) = true := (Bool.and_eq_true _ _ |>.mp hcond).1
          have : c' = ⟨name, rel, defLine, sig, lang, [], [], 0⟩ := List.mem_singleton.mp hmem'
          subst this
          simpa using bne_iff_ne.mp hne
      · rw [if_neg hcond] at hc'; exact hc c' hc'

/-- The line loop preserves the same invariant. -/
theorem findCallersInFileLoop_name_ne (lines : List String) (fn lang rel : String) :
    ∀ (rest : List String) (i : Nat) (callers : List CallChainNode),
      (∀ c ∈ callers, c.functionName ≠ fn) →
      ∀ c ∈ findCallersInFileLoop lines fn lang rel rest i callers, c.functionName ≠ fn := by
  intro rest
  induction rest with
  | nil => intro i callers hc c hmem; exact hc c hmem
  | cons line rest ih =>
    intro i callers hc c hmem
    simp only [findCallersInFileLoop] at hmem
    by_cases hline : (line == "") = true
    · rw [if_pos hline] at hmem; exact ih _ _ hc c hmem
    · rw [if_neg hline] at hmem
      exact ih _ _ (processCallOccs_name_ne lines fn lang rel i _ callers hc) c hmem

/-- C10: during caller discovery in one file, a call site whose nearest
enclosing function carries the traced function's own name produces no caller
edge, so a directly self-recursive function never appears among its own
callers: every node returned by `findCallersInFile` has a different name. -/
theorem c10_self_call_sites_produce_no_caller_edge
    (corpus : List SourceFile) (filePath functionName language rootPath : String) :
    ∀ c ∈ findCallersInFile corpus filePath functionName language rootPath,
      c.functionName ≠ functionName := by
  intro c hmem
  unfold findCallersInFile at hmem
  rcases hrf : readFile corpus filePath with _ | content
  · rw [hrf] at hmem; simp at hmem
  · rw [hrf] at hmem
    exact findCallersInFileLoop_name_ne _ _ _ _ _ _ _ (by simp) c hmem

/-- Heap reads below the old length are unaffected by appending. -/
theorem heapGet_append_lt {h e : List CallChainNode} {i : Nat} (hi : i < h.length) :
    heapGet (h ++ e) i = heapGet h i := by
  unfold heapGet
  rw [List.getD_eq_getElem?_getD, List.getD_eq_getElem?_getD, List.getElem?_append]
  rw [if_pos hi]

/-- Reading the first appended node. -/
theorem heapGet_append_self (h : List CallChainNode) (nd : CallChainNode)
    (e : List CallChainNode) : heapGet (h ++ nd :: e) h.length = nd := by
  unfold heapGet
  rw [List.getD_eq_getElem?_getD, List.getElem?_append_right (Nat.le_refl _)]
  simp

/-- Cache keys determine the function name for a fixed search path. -/
theorem cacheKeyOf_inj {a b p : String} (h : cacheKeyOf a p = cacheKeyOf b p) : a = b := by
  have hd := congrArg String.data h
  simp only [cacheKeyOf, String.data_append, List.append_assoc] at hd
  exact String.ext (List.append_cancel_right hd)

/-- A cache miss with no corpus hit leaves the state untouched. -/
theorem findFunction_miss_none (env : TraceEnv) (fn sp : String)
    (langs : Option (List String)) (s : TraceState)
    (hmiss : s.functionCache.find? (fun e => e.1 == cacheKeyOf fn sp) = none)
    (hnone : findFirstDecl env.corpus fn sp langs
      (getAllFiles env.corpus sp (langs.map getExtensionsForLanguages)) = none) :
    findFunction env fn sp langs s = (none, s) := by
  unfold findFunction
  simp only [hmiss, hnone]

/-- A cache miss with a corpus hit allocates the node and memoizes it. -/
theorem findFunction_miss_found (env : TraceEnv) (fn sp : String)
    (langs : Option (List String)) (s : TraceState) (nd : CallChainNode)
    (hmiss : s.functionCache.find? (fun e => e.1 == cacheKeyOf fn sp) = none)
    (hfound : findFirstDecl env.corpus fn sp langs
      (getAllFiles env.corpus sp (langs.map getExtensionsForLanguages)) = some nd) :
    findFunction env fn sp langs s =
      (some s.heap.length,
       { s with heap := s.heap ++ [nd],
                functionCache := s.functionCache ++ [(cacheKeyOf fn sp, s.heap.length)] }) := by
  unfold findFunction
  simp only [hmiss, hfound, allocNode]

/-- The node built by `searchFunctionInFile` carries the searched name, the
given language, empty child lists and depth 0. -/
theorem searchFunctionInFile_shape {corpus : List SourceFile} {fp fn lang root : String}
    {nd : CallChainNode} (h : searchFunctionInFile corpus fp fn lang root = some nd) :
    nd.functionName = fn ∧ nd.language = lang ∧ nd.callers = [] ∧ nd.callees = [] ∧
      nd.depth = 0 := by
  unfold searchFunctionInFile at h
  rcases hrf : readFile corpus fp with _ | content
  · rw [hrf] at h; cases h
  · rw [hrf] at h
    simp only [] at h
    rcases hfd : firstDeclLine lang fn (splitLines content) 0 with _ | i
    · rw [hfd] at h; cases h
    · rw [hfd] at h
      simp only [Option.some.injEq] at h
      subst h
      exact ⟨rfl, rfl, rfl, rfl, rfl⟩

/-- The node returned by the resolver's file loop carries the searched name,
a registry language name or `Unknown`, empty child lists and depth 0. -/
theorem findFirstDecl_shape {corpus : List SourceFile} {fn sp : String}
    {langs : Option (List String)} :
    ∀ {files : List String} {nd : CallChainNode},
      findFirstDecl corpus fn sp langs files = some nd →
      nd.functionName = fn ∧ nd.callers = [] ∧ nd.callees = [] ∧ nd.depth = 0 ∧
        ((∃ info ∈ SUPPORTED_LANGUAGES, nd.language = info.name) ∨ nd.language = "Unknown") := by
  intro files
  induction files with
  | nil => intro nd h; simp [findFirstDecl] at h
  | cons fp rest ih =>
    intro nd h
    simp only [findFirstDecl] at h
    by_cases hskip : languagesSkip langs (detectLanguage fp) = true
    · rw [if_pos hskip] at h; exact ih h
    · rw [if_neg hskip] at h
      rcases hs : searchFunctionInFile corpus fp fn (langNameOf (detectLanguage fp)) sp
        with _ | nd'
      · rw [hs] at h; exact ih h
      · rw [hs] at h
        simp only [Option.some.injEq] at h
        subst h
        obtain ⟨h1, h2, h3, h4, h5⟩ := searchFunctionInFile_shape hs
        refine ⟨h1, h3, h4, h5, ?_⟩
        unfold langNameOf at h2
        rcases hd : detectLanguage fp with _ | info
        · rw [hd] at h2; exact Or.inr h2
        · rw [hd] at h2
          refine Or.inl ⟨info, ?_, h2⟩
          unfold detectLanguage at hd
          by_cases hext : (extOf fp == "") = true
          · rw [if_pos hext] at hd; cases hd
          · rw [if_neg hext] at hd
            exact List.mem_of_find?_eq_some hd

/-- The sequence of callee tokens that the loop of `findCalleesInFile`
actually processes: the extracted tokens with the function's own name and
every repeated occurrence removed, keeping first occurrences. -/
def dedupTokens (functionName : String) : List String → List String → List String
  | [], _ => []
  | t :: ts, found =>
    if t != functionName && !(found.contains t) then
      t :: dedupTokens functionName ts (t :: found)
    else dedupTokens functionName ts found

/-- Processed tokens avoid the function's own name and the seen set. -/
theorem dedupTokens_mem {fn : String} :
    ∀ {ts found : List String} {t : String}, t ∈ dedupTokens fn ts found →
      t ≠ fn ∧ t ∉ found := by
  intro ts
  induction ts with
  | nil => intro found t h; simp [dedupTokens] at h
  | cons u ts ih =>
    intro found t h
    simp only [dedupTokens] at h
    by_cases hcond : (u != fn && !(found.contains u)) = true
    · rw [if_pos hcond] at h
      rcases List.mem_cons.mp h with rfl | h
      · have h1 := (Bool.and_eq_true _ _ |>.mp hcond).1
        have h2 := (Bool.and_eq_true _ _ |>.mp hcond).2
        exact ⟨bne_iff_ne.mp h1, by simpa using h2⟩
      · have := ih h
        exact ⟨this.1, fun hf => this.2 (List.mem_cons_of_mem _ hf)⟩
    · rw [if_neg hcond] at h
      exact ih h

/-- The processed-token sequence has no duplicates. -/
theorem dedupTokens_nodup (fn : String) :
    ∀ (ts found : List String), (dedupTokens fn ts found).Nodup := by
  intro ts
  induction ts with
  | nil => intro found; simp [dedupTokens]
  | cons u ts ih =>
    intro found
    simp only [dedupTokens]
    by_cases hcond : (u != fn && !(found.contains u)) = true
    · rw [if_pos hcond]
      refine List.nodup_cons.mpr ⟨?_, ih _⟩
      intro hmem
      exact (dedupTokens_mem hmem).2 (List.mem_cons_self _ _)
    · rw [if_neg hcond]; exact ih _

/-- The token loop of `findCalleesInFile`, run under a cache holding no entry
for any token still to process: the heap only grows, the output ids extend
the accumulator, their names enumerate the processed tokens in order
(`dedupTokens`), and every processed token whose corpus resolution fails is
represented among the outputs by the external placeholder node. -/
theorem resolveCalleeTokens_spec (env : TraceEnv) (fn root lang : String) :
    ∀ (ts found : List String) (acc : List Nat) (s : TraceState),
      (∀ t ∈ ts, t ≠ fn → t ∉ found →
        s.functionCache.find? (fun e => e.1 == cacheKeyOf t root) = none) →
      (∀ i ∈ acc, i < s.heap.length) →
      (∃ rest, (resolveCalleeTokens env fn root lang ts found acc s).1 = acc ++ rest) ∧
      (∃ ext, (resolveCalleeTokens env fn root lang ts found acc s).2.heap = s.heap ++ ext) ∧
      (∀ i ∈ (resolveCalleeTokens env fn root lang ts found acc s).1,
          i < (resolveCalleeTokens env fn root lang ts found acc s).2.heap.length) ∧
      ((resolveCalleeTokens env fn root lang ts found acc s).1.map
          (fun i => (heapGet (resolveCalleeTokens env fn root lang ts found acc s).2.heap
            i).functionName)
        = acc.map (fun i => (heapGet s.heap i).functionName) ++ dedupTokens fn ts found) ∧
      (∀ t ∈ dedupTokens fn ts found,
        findFirstDecl env.corpus t root (some [lang])
            (getAllFiles env.corpus root (some (getExtensionsForLanguages [lang]))) = none →
        ∃ id ∈ (resolveCalleeTokens env fn root lang ts found acc s).1,
          heapGet (resolveCalleeTokens env fn root lang ts found acc s).2.heap id
            = placeholderNode t) := by
  intro ts
  induction ts with
  | nil =>
    intro found acc s hkeys hacc
    simp only [resolveCalleeTokens, dedupTokens]
    exact ⟨⟨[], by simp⟩, ⟨[], by simp⟩, hacc, by simp, by simp⟩
  | cons t ts ih =>
    intro found acc s hkeys hacc
    by_cases hcond : (t != fn && !(found.contains t)) = true
    · have ht_ne : t ≠ fn := bne_iff_ne.mp (Bool.and_eq_true _ _ |>.mp hcond).1
      have ht_nf : t ∉ found := by simpa using (Bool.and_eq_true _ _ |>.mp hcond).2
      have hmiss : s.functionCache.find? (fun e => e.1 == cacheKeyOf t root) = none :=
        hkeys t (List.mem_cons_self _ _) ht_ne ht_nf
      have hdedup : dedupTokens fn (t :: ts) found = t :: dedupTokens fn ts (t :: found) := by
        simp only [dedupTokens, if_pos hcond]
      rcases hfd : findFirstDecl env.corpus t root (some [lang])
          (getAllFiles env.corpus root (some (getExtensionsForLanguages [lang]))) with _ | nd
      · -- resolution fails: a placeholder is allocated
        have hff : findFunction env t root (some [lang]) s = (none, s) :=
          findFunction_miss_none env t root (some [lang]) s hmiss (by simpa using hfd)
        have hred : resolveCalleeTokens env fn root lang (t :: ts) found acc s =
            resolveCalleeTokens env fn root lang ts (t :: found)
              (acc ++ [s.heap.length]) { s with heap := s.heap ++ [placeholderNode t] } := by
          simp only [resolveCalleeTokens, if_pos hcond, hff, allocNode]
        set s₁ : TraceState := { s with heap := s.heap ++ [placeholderNode t] } with hs₁
        have hkeys' : ∀ t' ∈ ts, t' ≠ fn → t' ∉ t :: found →
            s₁.functionCache.find? (fun e => e.1 == cacheKeyOf t' root) = none := by
          intro t' hmem hne hnf
          exact hkeys t' (List.mem_cons_of_mem _ hmem) hne
            (fun hf => hnf (List.mem_cons_of_mem _ hf))
        have hacc' : ∀ i ∈ acc ++ [s.heap.length], i < s₁.heap.length := by
          intro i hi
          rcases List.mem_append.mp hi with hi | hi
          · calc i < s.heap.length := hacc i hi
              _ ≤ s₁.heap.length := by simp [hs₁]
          · rw [List.mem_singleton.mp hi]
            simp [hs₁]
        obtain ⟨⟨rest, hrest⟩, ⟨ext, hext⟩, hvalid, hnames, hph⟩ :=
          ih (t :: found) (acc ++ [s.heap.length]) s₁ hkeys' hacc'
        rw [hred]
        refine ⟨⟨s.heap.length :: rest, by rw [hrest]; simp⟩,
                ⟨placeholderNode t :: ext, by rw [hext]; simp [hs₁]⟩, hvalid, ?_, ?_⟩
        · rw [hnames, hdedup]
          have hmap : (acc ++ [s.heap.length]).map
              (fun i => (heapGet s₁.heap i).functionName)
              = acc.map (fun i => (heapGet s.heap i).functionName) ++ [t] := by
            rw [List.map_append]
            congr 1
            · exact List.map_congr_left (fun i hi => by
                simp only [hs₁]
                rw [heapGet_append_lt (hacc i hi)])
            · simp only [List.map_cons, List.map_nil, hs₁]
              rw [heapGet_append_self s.heap (placeholderNode t) []]
              rfl
          rw [hmap]
          simp
        · intro t' ht' hfail
          rw [hdedup] at ht'
          rcases List.mem_cons.mp ht' with rfl | ht'
          · refine ⟨s.heap.length, by rw [hrest]; simp, ?_⟩
            rw [hext, heapGet_append_lt (by simp [hs₁])]
            simp only [hs₁]
            exact heapGet_append_self s.heap (placeholderNode t') []
          · exact hph t' ht' hfail
      · -- resolution succeeds: the resolved node is allocated and memoized
        have hff := findFunction_miss_found env t root (some [lang]) s nd hmiss
          (by simpa using hfd)
        have hred : resolveCalleeTokens env fn root lang (t :: ts) found acc s =
            resolveCalleeTokens env fn root lang ts (t :: found)
              (acc ++ [s.heap.length])
              { s with heap := s.heap ++ [nd],
                       functionCache :=
                         s.functionCache ++ [(cacheKeyOf t root, s.heap.length)] } := by
          simp only [resolveCalleeTokens, if_pos hcond, hff]
        set s₁ : TraceState :=
          { s with heap := s.heap ++ [nd],
                   functionCache := s.functionCache ++ [(cacheKeyOf t root, s.heap.length)] }
          with hs₁
        have hkeys' : ∀ t' ∈ ts, t' ≠ fn → t' ∉ t :: found →
            s₁.functionCache.find? (fun e => e.1 == cacheKeyOf t' root) = none := by
          intro t' hmem hne hnf
          have hne_t : t' ≠ t := fun h => hnf (h ▸ List.mem_cons_self _ _)
          simp only [hs₁]
          rw [List.find?_append]
          rw [hkeys t' (List.mem_cons_of_mem _ hmem) hne
            (fun hf => hnf (List.mem_cons_of_mem _ hf))]
          have : ((cacheKeyOf t root, s.heap.length).1 == cacheKeyOf t' root) = false := by
            simp only [beq_eq_false_iff_ne, ne_eq]
            intro hkeq
            exact hne_t (cacheKeyOf_inj hkeq).symm
          simp [List.find?, this]
        have hacc' : ∀ i ∈ acc ++ [s.heap.length], i < s₁.heap.length := by
          intro i hi
          rcases List.mem_append.mp hi with hi | hi
          · calc i < s.heap.length := hacc i hi
              _ ≤ s₁.heap.length := by simp [hs₁]
          · rw [List.mem_singleton.mp hi]
            simp [hs₁]
        obtain ⟨⟨rest, hrest⟩, ⟨ext, hext⟩, hvalid, hnames, hph⟩ :=
          ih (t :: found) (acc ++ [s.heap.length]) s₁ hkeys' hacc'
        rw [hred]
        refine ⟨⟨s.heap.length :: rest, by rw [hrest]; simp⟩,
                ⟨nd :: ext, by rw [hext]; simp [hs₁]⟩, hvalid, ?_, ?_⟩
        · rw [hnames, hdedup]
          have hmap : (acc ++ [s.heap.length]).map
              (fun i => (heapGet s₁.heap i).functionName)
              = acc.map (fun i => (heapGet s.heap i).functionName) ++ [t] := by
            rw [List.map_append]
            congr 1
            · exact List.map_congr_left (fun i hi => by
                simp only [hs₁]
                rw [heapGet_append_lt (hacc i hi)])
            · simp only [List.map_cons, List.map_nil, hs₁]
              rw [heapGet_append_self s.heap nd []]
              rw [(findFirstDecl_shape hfd).1]
          rw [hmap]
          simp
        · intro t' ht' hfail
          rw [hdedup] at ht'
          rcases List.mem_cons.mp ht' with rfl | ht'
          · rw [hfail] at hfd; cases hfd
          · exact hph t' ht' hfail
    · have hdedup : dedupTokens fn (t :: ts) found = dedupTokens fn ts found := by
        simp only [dedupTokens, if_neg hcond]
      have hred : resolveCalleeTokens env fn root lang (t :: ts) found acc s =
          resolveCalleeTokens env fn root lang ts found acc s := by
        simp only [resolveCalleeTokens, if_neg hcond]
      have hkeys' : ∀ t' ∈ ts, t' ≠ fn → t' ∉ found →
          s.functionCache.find? (fun e => e.1 == cacheKeyOf t' root) = none :=
        fun t' hmem => hkeys t' (List.mem_cons_of_mem _ hmem)
      obtain ⟨h1, h2, h3, h4, h5⟩ := ih found acc s hkeys' hacc
      rw [hred, hdedup]
      exact ⟨h1, h2, h3, h4, h5⟩

/-- Dereferencing any index yields a node satisfying any property that all
heap nodes and the default node satisfy. -/
theorem heapGet_prop {P : CallChainNode → Prop} {h : List CallChainNode} {i : Nat}
    (hall : ∀ nd ∈ h, P nd) (hd : P default) : P (heapGet h i) := by
  unfold heapGet
  rw [List.getD_eq_getElem?_getD]
  rcases hg : h[i]? with _ | nd
  · exact hd
  · exact hall nd (List.getElem?_mem hg)

/-- A fold preserves any state property its step preserves. -/
theorem foldlPreserves {α β : Type} (P : β → Prop) (f : β → α → β)
    (hf : ∀ b a, P b → P (f b a)) : ∀ (l : List α) (b : β), P b → P (l.foldl f b)
  | [], _, hb => hb
  | a :: l, b, hb => foldlPreserves P f hf l (f b a) (hf b a hb)

/-- Every node of the heap has depth at most `bound`. -/
def HeapDepthLE (h : List CallChainNode) (bound : Nat) : Prop :=
  ∀ nd ∈ h, nd.depth ≤ bound

/-- The resolver preserves the depth bound: a resolved node enters the heap
with depth 0. -/
theorem findFunction_hit (env : TraceEnv) (fn sp : String) (langs : Option (List String))
    (s : TraceState) (e : String × Nat)
    (h : s.functionCache.find? (fun x => x.1 == cacheKeyOf fn sp) = some e) :
    findFunction env fn sp langs s = (some e.2, s) := by
  unfold findFunction
  simp only [h]

/-- The resolver preserves the depth bound: a resolved node enters the heap
with depth 0 and a cache hit leaves the heap alone. -/
theorem findFunction_depth_le (env : TraceEnv) (fn sp : String)
    (langs : Option (List String)) (s : TraceState) (M : Nat)
    (hs : HeapDepthLE s.heap M) :
    HeapDepthLE (findFunction env fn sp langs s).2.heap M := by
  rcases hfind : s.functionCache.find? (fun e => e.1 == cacheKeyOf fn sp) with _ | e
  · rcases hfd : findFirstDecl env.corpus fn sp langs
        (getAllFiles env.corpus sp (Option.map getExtensionsForLanguages langs)) with _ | nd
    · rw [findFunction_miss_none env fn sp langs s hfind hfd]
      exact hs
    · rw [findFunction_miss_found env fn sp langs s nd hfind hfd]
      intro x hx
      rcases List.mem_append.mp hx with hx | hx
      · exact hs x hx
      · rw [List.mem_singleton.mp hx, (findFirstDecl_shape hfd).2.2.2.1]
        exact Nat.zero_le _
  · rw [findFunction_hit env fn sp langs s e hfind]
    exact hs

/-- The callee-token loop preserves the depth bound: placeholders enter the
heap with depth 0. -/
theorem resolveCalleeTokens_depth_le (env : TraceEnv) (fn root lang : String) (M : Nat) :
    ∀ (ts found : List String) (acc : List Nat) (s : TraceState),
      HeapDepthLE s.heap M →
      HeapDepthLE (resolveCalleeTokens env fn root lang ts found acc s).2.heap M := by
  intro ts
  induction ts with
  | nil => intro found acc s hs; exact hs
  | cons t ts ih =>
    intro found acc s hs
    simp only [resolveCalleeTokens]
    by_cases hcond : (t != fn && !(found.contains t)) = true
    · rw [if_pos hcond]
      rcases hff : findFunction env t root (some [lang]) s with ⟨o, s₁⟩
      have hs₁ : HeapDepthLE s₁.heap M := by
        have := findFunction_depth_le env t root (some [lang]) s M hs
        rw [hff] at this
        exact this
      rcases o with _ | id
      · simp only [allocNode]
        refine ih _ _ _ ?_
        intro x hx
        rcases List.mem_append.mp hx with hx | hx
        · exact hs₁ x hx
        · rw [List.mem_singleton.mp hx]
          exact Nat.zero_le _
      · exact ih _ _ _ hs₁
    · rw [if_neg hcond]
      exact ih _ _ _ hs

/-- `findCalleesInFile` preserves the depth bound. -/
theorem findCalleesInFile_depth_le (env : TraceEnv) (fp fn lang root : String)
    (s : TraceState) (M : Nat) (hs : HeapDepthLE s.heap M) :
    HeapDepthLE (findCalleesInFile env fp fn lang root s).2.heap M := by
  unfold findCalleesInFile
  rcases readFile env.corpus fp with _ | content
  · exact hs
  · simp only []
    rcases findFunctionDefinition (splitLines content) fn lang with _ | ⟨startLine, endLine⟩
    · exact hs
    · exact resolveCalleeTokens_depth_le env fn root lang M _ _ _ s hs

/-- Setting a node's depth to a value within the bound preserves it. -/
theorem setNodeDepth_depth_le {s : TraceState} {M i d : Nat} (hd : d ≤ M)
    (hs : HeapDepthLE s.heap M) : HeapDepthLE (setNodeDepth s i d).heap M := by
  intro x hx
  rcases List.mem_or_eq_of_mem_set hx with hx | rfl
  · exact hs x hx
  · exact hd

/-- Attaching a caller reference does not change any depth. -/
theorem pushCaller_depth_le {s : TraceState} {M node callerId : Nat}
    (hs : HeapDepthLE s.heap M) : HeapDepthLE (pushCaller s node callerId).heap M := by
  intro x hx
  rcases List.mem_or_eq_of_mem_set hx with hx | rfl
  · exact hs x hx
  · exact heapGet_prop hs (Nat.zero_le _) (i := node)

/-- Attaching a callee reference does not change any depth. -/
theorem pushCallee_depth_le {s : TraceState} {M node calleeId : Nat}
    (hs : HeapDepthLE s.heap M) : HeapDepthLE (pushCallee s node calleeId).heap M := by
  intro x hx
  rcases List.mem_or_eq_of_mem_set hx with hx | rfl
  · exact hs x hx
  · exact heapGet_prop hs (Nat.zero_le _) (i := node)

/-- Caller nodes are created with empty child lists and depth 0. -/
theorem processCallOccs_fresh (lines : List String) (fn lang rel : String) (i : Nat) :
    ∀ (k : Nat) (callers : List CallChainNode),
      (∀ c ∈ callers, c.callers = [] ∧ c.callees = [] ∧ c.depth = 0) →
      ∀ c ∈ processCallOccs lines fn lang rel i k callers,
        c.callers = [] ∧ c.callees = [] ∧ c.depth = 0 := by
  intro k
  induction k with
  | zero => intro callers hc c hmem; exact hc c hmem
  | succ k ih =>
    intro callers hc c hmem
    refine ih _ ?_ c hmem
    intro c' hc'
    simp only [processCallOccs] at hc' ⊢
    rcases hfc : findContainingFunction lines i lang with _ | ⟨name, defLine, sig⟩
    · rw [hfc] at hc'; exact hc c' hc'
    · rw [hfc] at hc'
      simp only [] at hc'
      by_cases hcond : (name != fn && !callerDedupHit callers name rel) = true
      · rw [if_pos hcond] at hc'
        rcases List.mem_append.mp hc' with hmem' | hmem'
        · exact hc c' hmem'
        · rw [List.mem_singleton.mp hmem']
          exact ⟨rfl, rfl, rfl⟩
      · rw [if_neg hcond] at hc'; exact hc c' hc'

/-- The line loop preserves freshness of collected caller nodes. -/
theorem findCallersInFileLoop_fresh (lines : List String) (fn lang rel : String) :
    ∀ (rest : List String) (i : Nat) (callers : List CallChainNode),
      (∀ c ∈ callers, c.callers = [] ∧ c.callees = [] ∧ c.depth = 0) →
      ∀ c ∈ findCallersInFileLoop lines fn lang rel rest i callers,
        c.callers = [] ∧ c.callees = [] ∧ c.depth = 0 := by
  intro rest
  induction rest with
  | nil => intro i callers hc c hmem; exact hc c hmem
  | cons line rest ih =>
    intro i callers hc c hmem
    simp only [findCallersInFileLoop] at hmem
    by_cases hline : (line == "") = true
    · rw [if_pos hline] at hmem; exact ih _ _ hc c hmem
    · rw [if_neg hline] at hmem
      exact ih _ _ (processCallOccs_fresh lines fn lang rel i _ callers hc) c hmem

/-- Every node returned by `findCallersInFile` has empty child lists and
depth 0. -/
theorem findCallersInFile_fresh (corpus : List SourceFile)
    (fp fn lang root : String) :
    ∀ c ∈ findCallersInFile corpus fp fn lang root,
      c.callers = [] ∧ c.callees = [] ∧ c.depth = 0 := by
  intro c hmem
  unfold findCallersInFile at hmem
  rcases hrf : readFile corpus fp with _ | content
  · rw [hrf] at hmem; simp at hmem
  · rw [hrf] at hmem
    exact findCallersInFileLoop_fresh _ _ _ _ _ _ _ (by simp) c hmem

/-- Callee expansion preserves the depth bound: every depth it writes is
`currentDepth + 1` under the guard `currentDepth < maxDepth`. -/
theorem findCallees_depth_le (env : TraceEnv) (input : TraceCallChainInput) :
    ∀ (fuel nodeId currentDepth startTime timeout : Nat) (s : TraceState),
      HeapDepthLE s.heap input.maxDepth →
      HeapDepthLE (findCallees env input fuel nodeId currentDepth startTime timeout s).heap
        input.maxDepth := by
  intro fuel
  induction fuel with
  | zero => intro _ _ _ _ s hs; exact hs
  | succ fuel ih =>
    intro nodeId currentDepth startTime timeout s hs
    rw [findCallees]
    simp only [dateNow]
    split
    · exact hs
    · split
      · exact hs
      · next h2 =>
        split
        · exact hs
        · rcases hfc : findCalleesInFile env
              (resolveFullPath (heapGet ({ s with tick := s.tick + 1 } : TraceState).heap
                nodeId).path input.path)
              (heapGet ({ s with tick := s.tick + 1 } : TraceState).heap nodeId).functionName
              (heapGet ({ s with tick := s.tick + 1 } : TraceState).heap nodeId).language
              input.path
              (addVisited { s with tick := s.tick + 1 }
                (nodeKeyOf (heapGet ({ s with tick := s.tick + 1 } : TraceState).heap nodeId)
                  currentDepth))
            with ⟨calleeIds, s₃⟩
          simp only [eraseVisited]
          have hs₃ : HeapDepthLE s₃.heap input.maxDepth := by
            have h' := findCalleesInFile_depth_le env
              (resolveFullPath (heapGet ({ s with tick := s.tick + 1 } : TraceState).heap
                nodeId).path input.path)
              (heapGet ({ s with tick := s.tick + 1 } : TraceState).heap nodeId).functionName
              (heapGet ({ s with tick := s.tick + 1 } : TraceState).heap nodeId).language
              input.path
              (addVisited { s with tick := s.tick + 1 }
                (nodeKeyOf (heapGet ({ s with tick := s.tick + 1 } : TraceState).heap nodeId)
                  currentDepth))
              input.maxDepth hs
            rw [hfc] at h'
            exact h'
          refine foldlPreserves (fun st : TraceState => HeapDepthLE st.heap input.maxDepth) _ ?_
            calleeIds s₃ hs₃
          intro b a hb
          have hbound : currentDepth + 1 ≤ input.maxDepth := by omega
          have hset : HeapDepthLE (pushCallee (setNodeDepth b a (currentDepth + 1)) nodeId
              a).heap input.maxDepth :=
            pushCallee_depth_le (setNodeDepth_depth_le hbound hb)
          split
          · exact ih _ _ _ _ _ hset
          · exact hset

/-- A fold preserves any state property its step preserves on the fold's own
elements. -/
theorem foldlPreservesMem {α β : Type} (P : β → Prop) :
    ∀ (l : List α) (f : β → α → β),
      (∀ b a, a ∈ l → P b → P (f b a)) → ∀ b, P b → P (l.foldl f b)
  | [], _, _, _, hb => hb
  | a :: l, f, hf, b, hb =>
    foldlPreservesMem P l f (fun b' a' ha' => hf b' a' (List.mem_cons_of_mem _ ha'))
      (f b a) (hf b a (List.mem_cons_self _ _) hb)

/-- Caller expansion preserves the depth bound. -/
theorem findCallers_depth_le (env : TraceEnv) (input : TraceCallChainInput) :
    ∀ (fuel nodeId currentDepth startTime timeout : Nat) (s : TraceState),
      HeapDepthLE s.heap input.maxDepth →
      HeapDepthLE (findCallers env input fuel nodeId currentDepth startTime timeout s).heap
        input.maxDepth := by
  intro fuel
  induction fuel with
  | zero => intro _ _ _ _ s hs; exact hs
  | succ fuel ih =>
    intro nodeId currentDepth startTime timeout s hs
    rw [findCallers]
    simp only [dateNow]
    split
    · exact hs
    · split
      · exact hs
      · next h2 =>
        split
        · exact hs
        · simp only [eraseVisited]
          refine foldlPreserves (fun st : TraceState => HeapDepthLE st.heap input.maxDepth) _ ?_ _ _
            (show HeapDepthLE (s.heap) input.maxDepth from hs)
          intro b fp hb
          split
          · exact hb
          · refine foldlPreservesMem (fun st : TraceState => HeapDepthLE st.heap input.maxDepth) _ _
              ?_ _ hb
            intro b' caller hcmem hb'
            simp only [allocNode]
            have hbound : currentDepth + 1 ≤ input.maxDepth := by omega
            have halloc : HeapDepthLE (b'.heap ++ [caller]) input.maxDepth := by
              intro x hx
              rcases List.mem_append.mp hx with hx | hx
              · exact hb' x hx
              · rw [List.mem_singleton.mp hx,
                  (findCallersInFile_fresh _ _ _ _ _ caller hcmem).2.2]
                exact Nat.zero_le _
            have hset : HeapDepthLE (pushCaller
                (setNodeDepth { b' with heap := b'.heap ++ [caller] } b'.heap.length
                  (currentDepth + 1)) nodeId b'.heap.length).heap input.maxDepth :=
              pushCaller_depth_le (setNodeDepth_depth_le hbound halloc)
            split
            · exact ih _ _ _ _ _ hset
            · exact hset

/-- The character scan of body isolation as the spec words it: track the
balance and remember whether it has ever gone positive; the closing brace
returning the positive-gone balance to zero ends the body. -/
def specLineScan : List Char → Int → Bool → Int × Bool × Bool
  | [], n, pos => (n, pos, false)
  | c :: cs, n, pos =>
    if c == '{' then specLineScan cs (n + 1) (pos || decide (0 < n + 1))
    else if c == '}' then
      if pos && n - 1 == 0 then (n - 1, pos, true)
      else specLineScan cs (n - 1) pos
    else specLineScan cs n pos

/-- The line loop of the spec-side isolation. -/
def specEndLoop : List String → Nat → Int → Bool → Option Nat
  | [], _, _, _ => none
  | line :: rest, i, n, pos =>
    if line == "" then specEndLoop rest (i + 1) n pos
    else
      match specLineScan line.data n pos with
      | (n', pos', hit) => if hit then some i else specEndLoop rest (i + 1) n' pos'

/-- Body isolation as described by §4.4 of the specification: the first line
where the balance, having gone positive, returns to zero; capped at
`min (startLine + 50) (lines.length - 1)` only when that never happens in
the remaining file. -/
def isolateBodySpec (lines : List String) (startLine : Nat) : Nat :=
  match specEndLoop (lines.drop startLine) startLine 0 false with
  | some i => i
  | none => min (startLine + 50) (lines.length - 1)

/-- The source's scan (with its `inFunction` flag) and the spec's scan (with
its went-positive flag) agree on the balance and the stop decision whenever
a positive balance implies both flags are set — which the scans maintain. -/
theorem lineScan_equiv : ∀ (cs : List Char) (n : Int) (inF pos : Bool),
    (0 < n → inF = true ∧ pos = true) →
    (lineBraceScan cs n inF).1 = (specLineScan cs n pos).1 ∧
    (lineBraceScan cs n inF).2.2 = (specLineScan cs n pos).2.2 ∧
    (0 < (lineBraceScan cs n inF).1 →
      (lineBraceScan cs n inF).2.1 = true ∧ (specLineScan cs n pos).2.1 = true) := by
  intro cs
  induction cs with
  | nil =>
    intro n inF pos h
    exact ⟨rfl, rfl, fun hn => h hn⟩
  | cons c cs ih =>
    intro n inF pos h
    simp only [lineBraceScan, specLineScan]
    by_cases hc : (c == '{') = true
    · rw [if_pos hc, if_pos hc]
      apply ih
      intro hn1
      refine ⟨rfl, ?_⟩
      rw [decide_eq_true hn1, Bool.or_true]
    · rw [if_neg hc, if_neg hc]
      by_cases hc2 : (c == '}') = true
      · rw [if_pos hc2, if_pos hc2]
        by_cases hn : (n - 1 == 0) = true
        · have hn1 : n = 1 := by
            have := beq_iff_eq.mp hn
            omega
          have hflags := h (by omega)
          rw [if_pos (by simp [hflags.1, hn]), if_pos (by simp [hflags.2, hn])]
          exact ⟨rfl, rfl, fun h0 => absurd h0 (by simp only []; omega)⟩
        · have hn' : (n - 1 == 0) = false := by
            simpa using hn
          rw [if_neg (by simp [hn']), if_neg (by simp [hn'])]
          exact ih _ _ _ (fun h0 => h (by omega))
      · rw [if_neg hc2, if_neg hc2]
        exact ih n inF pos h

/-- The two line loops agree under the same flag invariant. -/
theorem endLoop_equiv : ∀ (rest : List String) (i : Nat) (n : Int) (inF pos : Bool),
    (0 < n → inF = true ∧ pos = true) →
    findFunctionEndLoop rest i n inF = specEndLoop rest i n pos := by
  intro rest
  induction rest with
  | nil => intro i n inF pos h; rfl
  | cons line rest ih =>
    intro i n inF pos h
    simp only [findFunctionEndLoop, specEndLoop]
    by_cases hline : (line == "") = true
    · rw [if_pos hline, if_pos hline]
      exact ih _ _ _ _ h
    · rw [if_neg hline, if_neg hline]
      obtain ⟨h1, h2, h3⟩ := lineScan_equiv line.data n inF pos h
      rcases hsrc : lineBraceScan line.data n inF with ⟨n₁, f₁, hit₁⟩
      rcases hspec : specLineScan line.data n pos with ⟨n₂, p₂, hit₂⟩
      rw [hsrc, hspec] at h1 h2 h3
      simp only [] at h1 h2 h3
      subst h1
      subst h2
      by_cases hhit : hit₁ = true
      · rw [hhit]
        rfl
      · have hhit' : hit₁ = false := by simpa using hhit
        rw [hhit']
        simp only [if_false, Bool.false_eq_true]
        exact ih _ _ _ _ h3

/-- C7 (amended): `findFunctionEnd` never raises (it is a total function) and
computes exactly the §4.4 description: the first line on which the brace
balance, having gone positive, returns to zero; when the balance never
returns to zero anywhere in the remaining file — not merely within the
50-line window the claim describes — the result is capped at
`min (startLine + 50) (lines.length - 1)`.  The counterexample shows the
scan itself is not windowed. -/
theorem c7_find_function_end_matches_spec (lines : List String) (startLine : Nat) :
    findFunctionEnd lines startLine = isolateBodySpec lines startLine := by
  unfold findFunctionEnd isolateBodySpec
  rw [endLoop_equiv (lines.drop startLine) startLine 0 false false
    (fun h0 => absurd h0 (by omega))]

/-- The sort comparator is total. -/
theorem strListLe_total : ∀ (a b : List Char), strListLe a b = true ∨ strListLe b a = true := by
  intro a
  induction a with
  | nil => intro b; left; rfl
  | cons x xs ih =>
    intro b
    cases b with
    | nil => right; rfl
    | cons y ys =>
      simp only [strListLe]
      by_cases h1 : x.toNat < y.toNat
      · left; rw [if_pos h1]
      · by_cases h2 : y.toNat < x.toNat
        · right; rw [if_pos h2]
        · have hxy : x.toNat = y.toNat := by omega
          rcases ih ys with h | h
          · left; rw [if_neg h1, if_pos hxy]; exact h
          · right; rw [if_neg h2, if_pos hxy.symm]; exact h

/-- The sort comparator is transitive. -/
theorem strListLe_trans : ∀ (a b c : List Char),
    strListLe a b = true → strListLe b c = true → strListLe a c = true := by
  intro a
  induction a with
  | nil => intro b c _ _; rfl
  | cons x xs ih =>
    intro b c hab hbc
    cases b with
    | nil => cases hab
    | cons y ys =>
      cases c with
      | nil => cases hbc
      | cons z zs =>
        simp only [strListLe] at hab hbc ⊢
        split_ifs at hab hbc ⊢ <;>
          first
          | rfl
          | omega
          | exact ih ys zs hab hbc

/-- The sort comparator is antisymmetric. -/
theorem strListLe_antisymm : ∀ (a b : List Char),
    strListLe a b = true → strListLe b a = true → a = b := by
  intro a
  induction a with
  | nil => intro b _ hba; cases b with
    | nil => rfl
    | cons y ys => cases hba
  | cons x xs ih =>
    intro b hab hba
    cases b with
    | nil => cases hab
    | cons y ys =>
      simp only [strListLe] at hab hba
      by_cases h1 : x.toNat < y.toNat
      · rw [if_neg (by omega : ¬ y.toNat < x.toNat), if_neg (by omega : ¬ y.toNat = x.toNat)]
          at hba
        cases hba
      · by_cases h1' : x.toNat = y.toNat
        · rw [if_neg h1, if_pos h1'] at hab
          rw [if_neg (by omega : ¬ y.toNat < x.toNat), if_pos h1'.symm] at hba
          have hchar : x = y := Char.ext (UInt32.toNat.inj h1')
          rw [hchar, ih ys hab hba]
        · rw [if_neg h1, if_neg h1'] at hab; cases hab

instance : IsTotal String (fun a b => strLe a b = true) :=
  ⟨fun a b => strListLe_total a.data b.data⟩

instance : IsTrans String (fun a b => strLe a b = true) :=
  ⟨fun a b c => strListLe_trans a.data b.data c.data⟩

instance : IsAntisymm String (fun a b => strLe a b = true) :=
  ⟨fun a b h1 h2 => String.ext (strListLe_antisymm a.data b.data h1 h2)⟩

/-- Sorting is invariant under permutation of the input. -/
theorem sortStrings_eq_of_perm {l₁ l₂ : List String} (h : l₁.Perm l₂) :
    List.insertionSort (fun a b => strLe a b = true) l₁ =
      List.insertionSort (fun a b => strLe a b = true) l₂ :=
  List.eq_of_perm_of_sorted
    ((List.perm_insertionSort _ _).trans (h.trans (List.perm_insertionSort _ _).symm))
    (List.sorted_insertionSort _ _) (List.sorted_insertionSort _ _)

/-- Pointwise-permuted pattern matches flatten to permuted results. -/
theorem flattenPerm (f g : String → List String) :
    ∀ (ps : List String), (∀ p, (f p).Perm (g p)) →
      ((ps.map f).flatten).Perm ((ps.map g).flatten) := by
  intro ps h
  induction ps with
  | nil => rfl
  | cons p ps ih => exact (h p).append ih

/-- Membership in first-occurrence deduplication. -/
theorem dedupFirstAux_mem :
    ∀ (l seen : List String) (a : String),
      a ∈ dedupFirstAux seen l ↔ a ∈ l ∧ a ∉ seen := by
  intro l
  induction l with
  | nil => intro seen a; simp [dedupFirstAux]
  | cons x xs ih =>
    intro seen a
    simp only [dedupFirstAux]
    by_cases hc : (seen.contains x) = true
    · rw [if_pos hc, ih]
      have hxs : x ∈ seen := by simpa using hc
      constructor
      · rintro ⟨hm, hn⟩
        exact ⟨List.mem_cons_of_mem _ hm, hn⟩
      · rintro ⟨hm, hn⟩
        rcases List.mem_cons.mp hm with rfl | hm
        · exact absurd hxs hn
        · exact ⟨hm, hn⟩
    · rw [if_neg hc]
      have hxs : x ∉ seen := by simpa using hc
      constructor
      · intro hm
        rcases List.mem_cons.mp hm with rfl | hm
        · exact ⟨List.mem_cons_self _ _, hxs⟩
        · obtain ⟨hm', hn'⟩ := (ih (x :: seen) a).mp hm
          exact ⟨List.mem_cons_of_mem _ hm',
            fun hf => hn' (List.mem_cons_of_mem _ hf)⟩
      · rintro ⟨hm, hn⟩
        rcases List.mem_cons.mp hm with rfl | hm
        · exact List.mem_cons_self _ _
        · by_cases hax : a = x
          · rw [hax]; exact List.mem_cons_self _ _
          · refine List.mem_cons_of_mem _ ((ih (x :: seen) a).mpr ⟨hm, ?_⟩)
            intro hf
            rcases List.mem_cons.mp hf with h' | h'
            · exact hax h'
            · exact hn h'

/-- First-occurrence deduplication yields a duplicate-free list. -/
theorem dedupFirstAux_nodup : ∀ (l seen : List String), (dedupFirstAux seen l).Nodup := by
  intro l
  induction l with
  | nil => intro seen; simp [dedupFirstAux]
  | cons x xs ih =>
    intro seen
    simp only [dedupFirstAux]
    by_cases hc : (seen.contains x) = true
    · rw [if_pos hc]; exact ih _
    · rw [if_neg hc]
      refine List.nodup_cons.mpr ⟨?_, ih _⟩
      intro hmem
      exact ((dedupFirstAux_mem xs (x :: seen) x).mp hmem).2 (List.mem_cons_self _ _)

/-- Deduplication respects permutation of the collected paths. -/
theorem dedupFirst_perm {l₁ l₂ : List String} (h : l₁.Perm l₂) :
    (dedupFirst l₁).Perm (dedupFirst l₂) := by
  refine (List.perm_ext_iff_of_nodup (dedupFirstAux_nodup _ _)
    (dedupFirstAux_nodup _ _)).mpr ?_
  intro a
  rw [dedupFirstAux_mem, dedupFirstAux_mem]
  simp [h.mem_iff]

/-- The corpus walker's output is independent of corpus enumeration order:
collected matches are deduplicated and sorted. -/
theorem getAllFiles_perm {c₁ c₂ : List SourceFile} (root : String)
    (exts : Option (List String)) (h : c₁.Perm c₂) :
    getAllFiles c₁ root exts = getAllFiles c₂ root exts := by
  unfold getAllFiles
  apply sortStrings_eq_of_perm
  apply dedupFirst_perm
  apply flattenPerm
  intro p
  exact List.Perm.map _ (List.Perm.filter _ h)

/-- With duplicate-free paths, file reads are independent of corpus order. -/
theorem readFile_perm {c₁ c₂ : List SourceFile} (h : c₁.Perm c₂)
    (hnd : (c₁.map SourceFile.path).Nodup) (p : String) :
    readFile c₁ p = readFile c₂ p := by
  unfold readFile
  rcases h₁ : c₁.find? (fun f => f.path == p) with _ | f₁ <;>
    rcases h₂ : c₂.find? (fun f => f.path == p) with _ | f₂
  · rw [h₁, h₂]
  · exact absurd (List.find?_some h₂)
      ((List.find?_eq_none.mp h₁) f₂ (h.mem_iff.mpr (List.mem_of_find?_eq_some h₂)))
  · exact absurd (List.find?_some h₁)
      ((List.find?_eq_none.mp h₂) f₁ (h.mem_iff.mp (List.mem_of_find?_eq_some h₁)))
  · have hf₁mem : f₁ ∈ c₁ := List.mem_of_find?_eq_some h₁
    have hf₂mem : f₂ ∈ c₁ := h.mem_iff.mpr (List.mem_of_find?_eq_some h₂)
    have hp₁ : f₁.path = p := by
      have h' := List.find?_some h₁
      simpa using h'
    have hp₂ : f₂.path = p := by
      have h' := List.find?_some h₂
      simpa using h'
    have heq : f₁ = f₂ :=
      List.inj_on_of_nodup_map hnd hf₁mem hf₂mem (by rw [hp₁, hp₂])
    rw [h₁, h₂, heq]

/-- `searchFunctionInFile` consults the corpus only through `readFile`. -/
theorem searchFunctionInFile_congr {c₁ c₂ : List SourceFile}
    (hrf : ∀ p, readFile c₁ p = readFile c₂ p) (fp fn lang root : String) :
    searchFunctionInFile c₁ fp fn lang root = searchFunctionInFile c₂ fp fn lang root := by
  unfold searchFunctionInFile
  rw [hrf fp]

/-- The file loop of the resolver is corpus-order independent given equal
reads. -/
theorem findFirstDecl_congr {c₁ c₂ : List SourceFile}
    (hrf : ∀ p, readFile c₁ p = readFile c₂ p) (fn sp : String)
    (langs : Option (List String)) :
    ∀ files, findFirstDecl c₁ fn sp langs files = findFirstDecl c₂ fn sp langs files := by
  intro files
  induction files with
  | nil => rfl
  | cons fp rest ih =>
    simp only [findFirstDecl]
    rw [searchFunctionInFile_congr hrf, ih]

/-- C8: function resolution is deterministic.  For an identical corpus —
given up to enumeration order, with duplicate-free paths — and identical
inputs, two request-fresh runs of `findFunction` return the identical
result, whatever the wall clock does: candidate files are first brought into
the stable sorted order, and each is scanned in ascending line order for the
first declaration hit. -/
theorem c8_resolver_deterministic (c₁ c₂ : List SourceFile) (k₁ k₂ : Nat → Nat)
    (functionName searchPath : String) (languages : Option (List String))
    (hperm : c₁.Perm c₂) (hnd : (c₁.map SourceFile.path).Nodup) :
    findFunction ⟨c₁, k₁⟩ functionName searchPath languages initState =
      findFunction ⟨c₂, k₂⟩ functionName searchPath languages initState := by
  unfold findFunction
  simp only [initState, List.find?]
  rw [getAllFiles_perm searchPath (Option.map getExtensionsForLanguages languages) hperm,
      findFirstDecl_congr (readFile_perm hperm hnd) functionName searchPath languages]

/-- A two-file corpus and its reversal. -/
def permCorpusA : List SourceFile :=
  [⟨"p/b.js", "function g(){ }"⟩, ⟨"p/a.js", "function b(){ }"⟩]

/-- The same two files enumerated in the other order. -/
def permCorpusB : List SourceFile :=
  [⟨"p/a.js", "function b(){ }"⟩, ⟨"p/b.js", "function g(){ }"⟩]

/-- Witness for C8 on a concrete permuted corpus pair. -/
theorem c8_resolver_deterministic_witness :
    findFunction ⟨permCorpusA, steadyClock⟩ "b" "p" none initState =
      findFunction ⟨permCorpusB, steadyClock⟩ "b" "p" none initState :=
  c8_resolver_deterministic permCorpusA permCorpusB steadyClock steadyClock "b" "p" none
    (List.Perm.swap _ _ _) (by decide)

/-- Consuming a literal leaves a suffix of the input. -/
theorem eatLitCI_suffix : ∀ {pat cs r : List Char}, eatLitCI pat cs = some r → r <:+ cs := by
  intro pat
  induction pat with
  | nil =>
    intro cs r h
    simp only [eatLitCI, Option.some.injEq] at h
    subst h
    exact List.suffix_refl _
  | cons p ps ih =>
    intro cs r h
    cases cs with
    | nil => cases h
    | cons c cs' =>
      simp only [eatLitCI] at h
      by_cases hc : (ciEq p c) = true
      · rw [if_pos hc] at h
        exact (ih h).trans (List.suffix_cons c cs')
      · rw [if_neg hc] at h; cases h

/-- Skipping whitespace leaves a suffix. -/
theorem eatSpaces_suffix (cs : List Char) : eatSpaces cs <:+ cs :=
  List.dropWhile_suffix _

/-- Consuming mandatory whitespace leaves a suffix. -/
theorem eatSpaces1_suffix {cs r : List Char} (h : eatSpaces1 cs = some r) : r <:+ cs := by
  cases cs with
  | nil => cases h
  | cons c cs' =>
    simp only [eatSpaces1] at h
    by_cases hc : isSpaceChar c = true
    · rw [if_pos hc] at h
      simp only [Option.some.injEq] at h
      subst h
      exact (eatSpaces_suffix cs').trans (List.suffix_cons c cs')
    · rw [if_neg hc] at h; cases h

/-- Consuming one expected character leaves a suffix. -/
theorem expectChar_suffix {c : Char} {cs r : List Char} (h : expectChar c cs = some r) :
    r <:+ cs := by
  cases cs with
  | nil => cases h
  | cons x xs =>
    simp only [expectChar] at h
    by_cases hc : (x == c) = true
    · rw [if_pos hc] at h
      simp only [Option.some.injEq] at h
      subst h
      exact List.suffix_cons x xs
    · rw [if_neg hc] at h; cases h

/-- Consuming through the closing parenthesis leaves a suffix. -/
theorem eatCloseParen_suffix {cs r : List Char} (h : eatCloseParen cs = some r) :
    r <:+ cs := by
  unfold eatCloseParen at h
  split at h
  · next rest heq =>
    simp only [Option.some.injEq] at h
    subst h
    exact (List.suffix_cons ')' rest).trans (heq ▸ List.dropWhile_suffix _)
  · cases h

/-- Consuming a word leaves a suffix. -/
theorem eatWord1_suffix {cs w r : List Char} (h : eatWord1 cs = some (w, r)) : r <:+ cs := by
  cases cs with
  | nil => cases h
  | cons c cs' =>
    simp only [eatWord1] at h
    by_cases hc : isWordChar c = true
    · rw [if_pos hc] at h
      simp only [Option.some.injEq, Prod.mk.injEq] at h
      obtain ⟨-, hr⟩ := h
      subst hr
      exact (List.dropWhile_suffix _).trans (List.suffix_cons c cs')
    · rw [if_neg hc] at h; cases h

/-- Unpack an alternation hit. -/
theorem orElse_some {α : Type} {a b : Option α} {x : α} (h : (a <|> b) = some x) :
    a = some x ∨ b = some x := by
  rcases ha : a with _ | y
  · rw [ha] at h
    simp only [Option.none_orElse] at h
    exact Or.inr h
  · rw [ha] at h
    simp only [Option.some_orElse] at h
    exact Or.inl h

/-- A scan hit happens at some suffix position of the line. -/
theorem scanMatch_some {f : List Char → Option (List Char)} :
    ∀ {cs : List Char} {b : Bool} {out : List Char},
      scanMatch f b cs = some out → ∃ cs', cs' <:+ cs ∧ f cs' = some out := by
  intro cs
  induction cs with
  | nil => intro b out h; cases h
  | cons c cs' ih =>
    intro b out h
    simp only [scanMatch] at h
    rcases hf : (if b then none else f (c :: cs')) with _ | v
    · rw [hf] at h
      obtain ⟨cs₀, hsuf, hf₀⟩ := ih h
      exact ⟨cs₀, hsuf.trans (List.suffix_cons c cs'), hf₀⟩
    · rw [hf] at h
      simp only [Option.some.injEq] at h
      subst h
      by_cases hb : b = true
      · rw [if_pos hb] at hf; cases hf
      · rw [if_neg hb] at hf
        exact ⟨c :: cs', List.suffix_refl _, hf⟩

/-- A successful name slot means the name was matched at that position. -/
theorem eatNamePart_isSome {n cs : List Char} {out : List Char × List Char}
    (h : eatNamePart (some n) cs = some out) : (eatLitCI n cs).isSome = true := by
  unfold eatNamePart at h
  simp only [] at h
  rcases he : eatLitCI n cs with _ | r
  · rw [he] at h; simp at h
  · rfl

/-- Membership in an option-with-default over suffixes. -/
theorem getD_suffix {o : Option (List Char)} {d base : List Char}
    (hd : d <:+ base) (ho : ∀ v, o = some v → v <:+ base) : o.getD d <:+ base := by
  cases o with
  | none => exact hd
  | some v => exact ho v rfl

/-- The default pattern matches the name at its own position. -/
theorem defaultDeclAt_nameHit {n cs out : List Char}
    (h : defaultDeclAt (some n) cs = some out) :
    ∃ cs', cs' <:+ cs ∧ (eatLitCI n cs').isSome = true := by
  unfold defaultDeclAt at h
  rcases hnp : eatNamePart (some n) cs with _ | pr
  · rw [hnp] at h; simp at h
  · exact ⟨cs, List.suffix_refl _, eatNamePart_isSome hnp⟩

/-- The arrow pattern matches the name at its own position. -/
theorem jsDeclArrowAt_nameHit {n cs out : List Char}
    (h : jsDeclArrowAt (some n) cs = some out) :
    ∃ cs', cs' <:+ cs ∧ (eatLitCI n cs').isSome = true := by
  unfold jsDeclArrowAt at h
  rcases hnp : eatNamePart (some n) cs with _ | pr
  · rw [hnp] at h; simp at h
  · exact ⟨cs, List.suffix_refl _, eatNamePart_isSome hnp⟩

/-- The paren-brace pattern matches the name at its own position. -/
theorem jsDeclBraceAt_nameHit {n cs out : List Char}
    (h : jsDeclBraceAt (some n) cs = some out) :
    ∃ cs', cs' <:+ cs ∧ (eatLitCI n cs').isSome = true := by
  unfold jsDeclBraceAt at h
  rcases hnp : eatNamePart (some n) cs with _ | pr
  · rw [hnp] at h; simp at h
  · exact ⟨cs, List.suffix_refl _, eatNamePart_isSome hnp⟩

/-- The function-keyword pattern matches the name at a suffix position. -/
theorem jsDeclFnAt_nameHit {n cs out : List Char}
    (h : jsDeclFnAt (some n) cs = some out) :
    ∃ cs', cs' <:+ cs ∧ (eatLitCI n cs').isSome = true := by
  unfold jsDeclFnAt at h
  simp only [bind, Option.bind_eq_some] at h
  obtain ⟨r₀, hor, r₁, hsp, ⟨nn, r₂⟩, hnp, hrest⟩ := h
  have hr₀ : r₀ <:+ cs := by
    rcases orElse_some hor with hl | hl
    · exact eatLitCI_suffix hl
    · simp only [bind, Option.bind_eq_some] at hl
      obtain ⟨ra, ha, rb, hb, hc⟩ := hl
      exact (eatLitCI_suffix hc).trans ((eatSpaces1_suffix hb).trans (eatLitCI_suffix ha))
  exact ⟨r₁, (eatSpaces1_suffix hsp).trans hr₀, eatNamePart_isSome hnp⟩

/-- The Python pattern matches the name at a suffix position. -/
theorem pyDeclLine_nameHit {n line out : List Char}
    (h : pyDeclLine (some n) line = some out) :
    ∃ cs', cs' <:+ line ∧ (eatLitCI n cs').isSome = true := by
  unfold pyDeclLine at h
  simp only [bind, Option.bind_eq_some] at h
  obtain ⟨r₂, hdef, r₃, hsp, ⟨nn, r₄⟩, hnp, hrest⟩ := h
  have hbase : ∀ v : List Char,
      (eatLitCI "async".data (eatSpaces line)).bind eatSpaces1 = some v → v <:+ line := by
    intro v hv
    simp only [Option.bind_eq_some] at hv
    obtain ⟨ra, ha, hb⟩ := hv
    exact (eatSpaces1_suffix hb).trans ((eatLitCI_suffix ha).trans (eatSpaces_suffix line))
  have hstart : ((eatLitCI "async".data (eatSpaces line)).bind eatSpaces1).getD
      (eatSpaces line) <:+ line := getD_suffix (eatSpaces_suffix line) hbase
  refine ⟨r₃, ?_, eatNamePart_isSome hnp⟩
  exact (eatSpaces1_suffix hsp).trans ((eatLitCI_suffix hdef).trans hstart)

/-- The Go pattern matches the name at a suffix position. -/
theorem goDeclLine_nameHit {n line out : List Char}
    (h : goDeclLine (some n) line = some out) :
    ∃ cs', cs' <:+ line ∧ (eatLitCI n cs').isSome = true := by
  unfold goDeclLine at h
  simp only [bind, Option.bind_eq_some] at h
  obtain ⟨r₀, hfn, r₁, hsp, ⟨nn, r₂⟩, hnp, hrest⟩ := h
  have hr₁ : r₁ <:+ line := (eatSpaces1_suffix hsp).trans
    ((eatLitCI_suffix hfn).trans (eatSpaces_suffix line))
  have hbase : ∀ v : List Char,
      ((expectChar '(' r₁).bind fun r2 => (eatCloseParen r2).bind eatSpaces1) = some v →
        v <:+ line := by
    intro v hv
    simp only [Option.bind_eq_some] at hv
    obtain ⟨ra, ha, rb, hb, hc⟩ := hv
    exact (eatSpaces1_suffix hc).trans ((eatCloseParen_suffix hb).trans
      ((expectChar_suffix ha).trans hr₁))
  have hstart : ((expectChar '(' r₁).bind fun r2 =>
      (eatCloseParen r2).bind eatSpaces1).getD r₁ <:+ line := getD_suffix hr₁ hbase
  exact ⟨((expectChar '(' r₁).bind fun r2 => (eatCloseParen r2).bind eatSpaces1).getD r₁,
    hstart, eatNamePart_isSome hnp⟩

/-- A Java keyword hit leaves a suffix. -/
theorem javaKwAt_suffix {cs r : List Char} (h : javaKwAt cs = some r) : r <:+ cs := by
  unfold javaKwAt at h
  rcases orElse_some h with h | h
  · exact eatLitCI_suffix h
  rcases orElse_some h with h | h
  · exact eatLitCI_suffix h
  rcases orElse_some h with h | h
  · exact eatLitCI_suffix h
  rcases orElse_some h with h | h
  · exact eatLitCI_suffix h
  rcases orElse_some h with h | h
  · exact eatLitCI_suffix h
  exact eatLitCI_suffix h

/-- The Java tail scan hits the name at a suffix position unless the hit was
already carried in. -/
theorem javaScanTail_nameHit {n : List Char} :
    ∀ (cur : List Char) (idx : Nat) (prev : Char) (best : Option (List Char))
      (out : List Char),
      javaScanTail (some n) idx prev cur best = some out →
      best.isSome = true ∨ ∃ cs', cs' <:+ cur ∧ (eatLitCI n cs').isSome = true := by
  intro cur
  induction cur with
  | nil =>
    intro idx prev best out h
    simp only [javaScanTail] at h
    rw [h]
    exact Or.inl rfl
  | cons c cs ih =>
    intro idx prev best out h
    simp only [javaScanTail] at h
    rcases ih _ _ _ _ h with hbest | ⟨cs', hsuf, hsome⟩
    · rw [Option.isSome_iff_exists] at hbest
      obtain ⟨v, hv⟩ := hbest
      rcases orElse_some hv with hl | hl
      · by_cases hcond : (2 ≤ idx && isSpaceChar prev) = true
        · rw [if_pos hcond] at hl
          simp only [bind, Option.bind_eq_some] at hl
          obtain ⟨⟨n', r2⟩, hnp, hrest⟩ := hl
          exact Or.inr ⟨c :: cs, List.suffix_refl _, eatNamePart_isSome hnp⟩
        · rw [if_neg hcond] at hl; cases hl
      · rw [hl]; exact Or.inl rfl
    · exact Or.inr ⟨cs', hsuf.trans (List.suffix_cons c cs), hsome⟩

/-- The Java pattern matches the name at a suffix position. -/
theorem javaDeclAt_nameHit {n cs out : List Char}
    (h : javaDeclAt (some n) cs = some out) :
    ∃ cs', cs' <:+ cs ∧ (eatLitCI n cs').isSome = true := by
  unfold javaDeclAt at h
  simp only [bind, Option.bind_eq_some] at h
  obtain ⟨r₀, hkw, hrest⟩ := h
  cases r₀ with
  | nil => simp at hrest
  | cons c0 rest =>
    simp only [] at hrest
    by_cases hsp : isSpaceChar c0 = true
    · rw [if_pos hsp] at hrest
      rcases javaScanTail_nameHit rest 1 c0 none out hrest with hbest | ⟨cs', hsuf, hsome⟩
      · simp at hbest
      · refine ⟨cs', hsuf.trans (?_ : rest <:+ cs), hsome⟩
        exact (List.suffix_cons c0 rest).trans (javaKwAt_suffix hkw)
    · rw [if_neg hsp] at hrest; cases hrest

/-- A name hit at a suffix position is a substring occurrence. -/
theorem containsSubCI_of_suffix {pat : List Char} :
    ∀ {cs cs' : List Char}, cs' <:+ cs → (eatLitCI pat cs').isSome = true →
      containsSubCI pat cs = true := by
  intro cs
  induction cs with
  | nil =>
    intro cs' hsuf hsome
    have h0 : cs' = [] := List.suffix_nil.mp hsuf
    subst h0
    simpa [containsSubCI] using hsome
  | cons c cs ih =>
    intro cs' hsuf hsome
    rcases List.suffix_cons_iff.mp hsuf with h0 | hsuf'
    · subst h0
      simp [containsSubCI, hsome]
    · simp [containsSubCI, ih hsuf' hsome]

/-- A substring occurrence yields a matching suffix position. -/
theorem containsSubCI_extract {pat : List Char} :
    ∀ {cs : List Char}, containsSubCI pat cs = true →
      ∃ cs', cs' <:+ cs ∧ (eatLitCI pat cs').isSome = true := by
  intro cs
  induction cs with
  | nil =>
    intro h
    exact ⟨[], List.suffix_refl _, by simpa [containsSubCI] using h⟩
  | cons c cs ih =>
    intro h
    simp only [containsSubCI, Bool.or_eq_true] at h
    rcases h with h | h
    · exact ⟨c :: cs, List.suffix_refl _, h⟩
    · obtain ⟨cs', hsuf, hsome⟩ := ih h
      exact ⟨cs', hsuf.trans (List.suffix_cons c cs), hsome⟩

/-- A literal match extends over an appended tail. -/
theorem eatLitCI_append {pat : List Char} :
    ∀ {cs r tail : List Char}, eatLitCI pat cs = some r →
      eatLitCI pat (cs ++ tail) = some (r ++ tail) := by
  induction pat with
  | nil =>
    intro cs r tail h
    simp only [eatLitCI, Option.some.injEq] at h
    subst h
    rfl
  | cons p ps ih =>
    intro cs r tail h
    cases cs with
    | nil => cases h
    | cons c cs' =>
      simp only [eatLitCI, List.cons_append] at h ⊢
      by_cases hc : ciEq p c = true
      · rw [if_pos hc] at h ⊢
        exact ih h
      · rw [if_neg hc] at h; cases h

/-- Substring occurrence is monotone under infix extension. -/
theorem containsSubCI_mono {pat sub full : List Char} (hinf : sub <:+: full)
    (h : containsSubCI pat sub = true) : containsSubCI pat full = true := by
  obtain ⟨cs', hsuf, hsome⟩ := containsSubCI_extract h
  obtain ⟨s, t, hfull⟩ := hinf
  obtain ⟨pre, hpre⟩ := hsuf
  rw [Option.isSome_iff_exists] at hsome
  obtain ⟨r, hr⟩ := hsome
  have h2 : eatLitCI pat (cs' ++ t) = some (r ++ t) := eatLitCI_append hr
  have hsuffull : cs' ++ t <:+ full := by
    refine ⟨s ++ pre, ?_⟩
    rw [← hfull, ← hpre]
    simp [List.append_assoc]
  exact containsSubCI_of_suffix hsuffull (by rw [h2]; rfl)

/-- Every produced line is an infix of the remaining input plus the pending
accumulator. -/
theorem splitLinesAux_within :
    ∀ (cs acc : List Char), ∀ l ∈ splitLinesAux cs acc, l.data <:+: acc.reverse ++ cs := by
  intro cs
  induction cs with
  | nil =>
    intro acc l hl
    simp only [splitLinesAux, List.mem_singleton] at hl
    subst hl
    simp
  | cons c cs ih =>
    intro acc l hl
    simp only [splitLinesAux] at hl
    by_cases hc : (c == '\n') = true
    · rw [if_pos hc] at hl
      rcases List.mem_cons.mp hl with h0 | h0
      · subst h0
        exact ⟨[], c :: cs, by simp⟩
      · have h1 := ih [] l h0
        refine List.IsInfix.trans (by simpa using h1) ?_
        exact ⟨acc.reverse ++ [c], [], by simp⟩
    · rw [if_neg hc] at hl
      have h1 := ih (c :: acc) l hl
      simpa [List.append_assoc] using h1

/-- Every line of a split file is an infix of the file content. -/
theorem splitLines_within {s l : String} (hl : l ∈ splitLines s) :
    l.data <:+: s.data := by
  simpa using splitLinesAux_within s.data [] l hl

/-- A declaration-line hit means some listed pattern matched; each pattern's
match contains the searched name case-insensitively. -/
theorem lineMatchesDecl_containsSubCI {language name line : String}
    (h : lineMatchesDecl language name line = true) :
    containsSubCI name.data line.data = true := by
  unfold lineMatchesDecl at h
  rw [List.any_eq_true] at h
  obtain ⟨m, hm, hsome⟩ := h
  rw [Option.isSome_iff_exists] at hsome
  obtain ⟨out, hout⟩ := hsome
  unfold declPatterns at hm
  split at hm <;>
    simp only [List.mem_cons, List.not_mem_nil, or_false] at hm
  · rcases hm with rfl | rfl | rfl
    · obtain ⟨cs', hsuf, hX⟩ := scanMatch_some hout
      obtain ⟨cs'', hsuf', hs⟩ := jsDeclFnAt_nameHit hX
      exact containsSubCI_of_suffix (hsuf'.trans hsuf) hs
    · obtain ⟨cs', hsuf, hX⟩ := scanMatch_some hout
      obtain ⟨cs'', hsuf', hs⟩ := jsDeclArrowAt_nameHit hX
      exact containsSubCI_of_suffix (hsuf'.trans hsuf) hs
    · obtain ⟨cs', hsuf, hX⟩ := scanMatch_some hout
      obtain ⟨cs'', hsuf', hs⟩ := jsDeclBraceAt_nameHit hX
      exact containsSubCI_of_suffix (hsuf'.trans hsuf) hs
  · rcases hm with rfl | rfl | rfl
    · obtain ⟨cs', hsuf, hX⟩ := scanMatch_some hout
      obtain ⟨cs'', hsuf', hs⟩ := jsDeclFnAt_nameHit hX
      exact containsSubCI_of_suffix (hsuf'.trans hsuf) hs
    · obtain ⟨cs', hsuf, hX⟩ := scanMatch_some hout
      obtain ⟨cs'', hsuf', hs⟩ := jsDeclArrowAt_nameHit hX
      exact containsSubCI_of_suffix (hsuf'.trans hsuf) hs
    · obtain ⟨cs', hsuf, hX⟩ := scanMatch_some hout
      obtain ⟨cs'', hsuf', hs⟩ := jsDeclBraceAt_nameHit hX
      exact containsSubCI_of_suffix (hsuf'.trans hsuf) hs
  · subst hm
    obtain ⟨cs', hsuf, hs⟩ := pyDeclLine_nameHit hout
    exact containsSubCI_of_suffix hsuf hs
  · subst hm
    obtain ⟨cs', hsuf, hX⟩ := scanMatch_some hout
    obtain ⟨cs'', hsuf', hs⟩ := javaDeclAt_nameHit hX
    exact containsSubCI_of_suffix (hsuf'.trans hsuf) hs
  · subst hm
    obtain ⟨cs', hsuf, hs⟩ := goDeclLine_nameHit hout
    exact containsSubCI_of_suffix hsuf hs
  · subst hm
    obtain ⟨cs', hsuf, hX⟩ := scanMatch_some hout
    obtain ⟨cs'', hsuf', hs⟩ := defaultDeclAt_nameHit hX
    exact containsSubCI_of_suffix (hsuf'.trans hsuf) hs

/-- A first-declaration hit exhibits a matching line. -/
theorem firstDeclLine_some_mem {lang fn : String} :
    ∀ {ls : List String} {i j : Nat}, firstDeclLine lang fn ls i = some j →
      ∃ line ∈ ls, lineMatchesDecl lang fn line = true := by
  intro ls
  induction ls with
  | nil => intro i j h; cases h
  | cons line rest ih =>
    intro i j h
    simp only [firstDeclLine] at h
    by_cases he : (line == "") = true
    · rw [if_pos he] at h
      obtain ⟨l, hl, hm⟩ := ih h
      exact ⟨l, List.mem_cons_of_mem _ hl, hm⟩
    · rw [if_neg he] at h
      by_cases hd : lineMatchesDecl lang fn line = true
      · exact ⟨line, List.mem_cons_self _ _, hd⟩
      · rw [if_neg hd] at h
        obtain ⟨l, hl, hm⟩ := ih h
        exact ⟨l, List.mem_cons_of_mem _ hl, hm⟩

/-- When the searched name occurs nowhere in the corpus (not even as a
case-insensitive substring), no single-file search can hit. -/
theorem searchFunctionInFile_none_of_absent {corpus : List SourceFile}
    {fp fn lang root : String}
    (habs : ∀ f ∈ corpus, containsSubCI fn.data f.content.data = false) :
    searchFunctionInFile corpus fp fn lang root = none := by
  unfold searchFunctionInFile
  rcases hrf : readFile corpus fp with _ | content
  · rfl
  · simp only []
    rcases hfd : firstDeclLine lang fn (splitLines content) 0 with _ | i
    · rfl
    · exfalso
      have hfmem : ∃ f ∈ corpus, f.content = content := by
        unfold readFile at hrf
        rcases hfind : corpus.find? (fun f => f.path == fp) with _ | f
        · rw [hfind] at hrf; cases hrf
        · rw [hfind] at hrf
          simp only [Option.map_some', Option.some.injEq] at hrf
          exact ⟨f, List.mem_of_find?_eq_some hfind, hrf⟩
      obtain ⟨f, hfm, hfc⟩ := hfmem
      obtain ⟨line, hlm, hmatch⟩ := firstDeclLine_some_mem hfd
      have h1 := lineMatchesDecl_containsSubCI hmatch
      have h2 := containsSubCI_mono (splitLines_within hlm) h1
      have h3 := habs f hfm
      rw [hfc] at h3
      rw [h3] at h2
      cases h2

/-- A name absent from the whole corpus defeats the resolver's file loop. -/
theorem findFirstDecl_none_of_absent {corpus : List SourceFile} {fn sp : String}
    {langs : Option (List String)}
    (habs : ∀ f ∈ corpus, containsSubCI fn.data f.content.data = false) :
    ∀ files : List String, findFirstDecl corpus fn sp langs files = none := by
  intro files
  induction files with
  | nil => rfl
  | cons fp rest ih =>
    simp only [findFirstDecl]
    rw [searchFunctionInFile_none_of_absent habs]
    split
    · exact ih
    · exact ih

/-- C3 (amended): every node on the heap of a finished trace — hence every
node at any position of the returned tree — satisfies `depth ≤ maxDepth`.
The claim's second half, `depth` = number of edges from the traversal root to
the node's position, fails for cache-shared nodes (see the counterexample):
a node the resolution cache hands out again has its `depth` overwritten to
the depth of its most recent attachment. -/
theorem c3_depth_le_maxdepth (env : TraceEnv) (input : TraceCallChainInput)
    (s₀ : TraceState) (h₀ : HeapDepthLE s₀.heap input.maxDepth) :
    HeapDepthLE (traceCallChain env input s₀).2.heap input.maxDepth := by
  unfold traceCallChain
  rcases hff : findFunction env input.functionName input.path input.languages s₀
    with ⟨o, s₁⟩
  have hs₁ : HeapDepthLE s₁.heap input.maxDepth := by
    have h' := findFunction_depth_le env input.functionName input.path input.languages s₀
      input.maxDepth h₀
    rw [hff] at h'
    exact h'
  rcases o with _ | rootId
  · exact hs₁
  · simp only [dateNow]
    split
    · split
      · exact findCallees_depth_le env input _ _ _ _ _ _
          (findCallers_depth_le env input _ _ _ _ _ _ hs₁)
      · exact findCallees_depth_le env input _ _ _ _ _ _ hs₁
    · split
      · exact findCallers_depth_le env input _ _ _ _ _ _ hs₁
      · exact hs₁

/-- Witness for the amended C3 theorem on the scenario corpus. -/
theorem c3_depth_le_maxdepth_witness :
    HeapDepthLE (traceCallChain cyclicEnv calleeTraceInput initState).2.heap
      calleeTraceInput.maxDepth :=
  c3_depth_le_maxdepth cyclicEnv calleeTraceInput initState
    (fun nd h => absurd h (List.not_mem_nil nd))

/-- C4 (amended): callee extraction does deduplicate identical callee names
within one body — and also drops the function's own name — but no
keyword/builtin denylist is applied (no `includeBuiltins` input exists), so
keywords can appear as callees (see the counterexample).  Starting from the
request-fresh empty cache, the names of the nodes returned by
`findCalleesInFile` are pairwise distinct and never the function's own. -/
theorem c4_callee_names_deduplicated (env : TraceEnv) (fp fn lang root : String)
    (s : TraceState) (hc : s.functionCache = []) :
    ((findCalleesInFile env fp fn lang root s).1.map
        (fun i => (heapGet (findCalleesInFile env fp fn lang root s).2.heap
          i).functionName)).Nodup ∧
    fn ∉ (findCalleesInFile env fp fn lang root s).1.map
        (fun i => (heapGet (findCalleesInFile env fp fn lang root s).2.heap
          i).functionName) := by
  unfold findCalleesInFile
  rcases hrf : readFile env.corpus fp with _ | content
  · simp
  · simp only []
    rcases hfd : findFunctionDefinition (splitLines content) fn lang
      with _ | ⟨startLine, endLine⟩
    · simp
    · simp only []
      have hkeys : ∀ t ∈ extractCallTokens
          (extractFunctionBody (splitLines content) startLine endLine),
          t ≠ fn → t ∉ ([] : List String) →
          s.functionCache.find? (fun e => e.1 == cacheKeyOf t root) = none := by
        intro t _ _ _
        rw [hc]; rfl
      obtain ⟨_, _, _, hnames, _⟩ :=
        resolveCalleeTokens_spec env fn root lang _ [] [] s hkeys (by simp)
      rw [hnames]
      simp only [List.map_nil, List.nil_append]
      exact ⟨dedupTokens_nodup fn _ [], fun hmem => (dedupTokens_mem hmem).1 rfl⟩

/-- Witness for the amended C4 theorem on the keyword corpus. -/
theorem c4_callee_names_deduplicated_witness :
    ((findCalleesInFile keywordEnv "p/k.js" "b" "JavaScript" "p" initState).1.map
        (fun i => (heapGet (findCalleesInFile keywordEnv "p/k.js" "b" "JavaScript" "p"
          initState).2.heap i).functionName)).Nodup ∧
    "b" ∉ (findCalleesInFile keywordEnv "p/k.js" "b" "JavaScript" "p" initState).1.map
        (fun i => (heapGet (findCalleesInFile keywordEnv "p/k.js" "b" "JavaScript" "p"
          initState).2.heap i).functionName) :=
  c4_callee_names_deduplicated keywordEnv "p/k.js" "b" "JavaScript" "p" initState rfl

/-- C5 (amended): for every processed callee token whose corpus-wide
resolution fails, an external placeholder node (`path="external"`,
`language="unknown"`) is inserted among the returned callee references —
the edge is never silently dropped.  (`includeExternal` is accepted by the
schema but has no effect on this: see the counterexample.) -/
theorem c5_placeholder_inserted_on_failure (env : TraceEnv) (fn root lang : String)
    (ts : List String) (s : TraceState) (hc : s.functionCache = [])
    (t : String) (ht : t ∈ dedupTokens fn ts [])
    (hfail : findFirstDecl env.corpus t root (some [lang])
        (getAllFiles env.corpus root (some (getExtensionsForLanguages [lang]))) = none) :
    ∃ id ∈ (resolveCalleeTokens env fn root lang ts [] [] s).1,
      heapGet (resolveCalleeTokens env fn root lang ts [] [] s).2.heap id =
        placeholderNode t := by
  have hkeys : ∀ t' ∈ ts, t' ≠ fn → t' ∉ ([] : List String) →
      s.functionCache.find? (fun e => e.1 == cacheKeyOf t' root) = none := by
    intro t' _ _ _
    rw [hc]; rfl
  obtain ⟨_, _, _, _, hph⟩ :=
    resolveCalleeTokens_spec env fn root lang ts [] [] s hkeys (by simp)
  exact hph t ht hfail

/-- Witness for the amended C5 theorem: the unresolvable callee `c` of the
scenario corpus is represented by its placeholder node. -/
theorem c5_placeholder_inserted_on_failure_witness :
    ∃ id ∈ (resolveCalleeTokens cyclicEnv "b" "p" "JavaScript"
        (extractCallTokens "function b(){ c(); }") [] [] initState).1,
      heapGet (resolveCalleeTokens cyclicEnv "b" "p" "JavaScript"
        (extractCallTokens "function b(){ c(); }") [] [] initState).2.heap id =
        placeholderNode "c" :=
  c5_placeholder_inserted_on_failure cyclicEnv "b" "p" "JavaScript" _ initState rfl "c"
    (by decide) (by decide)

/-- All child references (the caller and callee arrays) of all heap nodes:
each entry stands for one position of the returned tree referencing a node
object. -/
def childRefs (h : List CallChainNode) : List Nat :=
  (h.map (fun nd => nd.callers ++ nd.callees)).flatten

/-- The identity fields of a node — the traversal never modifies them. -/
def sameIdentity (a b : CallChainNode) : Prop :=
  a.functionName = b.functionName ∧ a.path = b.path ∧ a.language = b.language

/-- One traversal phase seen from outside: the heap only grows, the request
cache is untouched, existing nodes keep their identity fields, and the child
references the phase adds are pairwise distinct indices of nodes it freshly
allocated. -/
def SepStep (s s' : TraceState) : Prop :=
  s.heap.length ≤ s'.heap.length ∧
  s'.functionCache = s.functionCache ∧
  (∀ i, i < s.heap.length → sameIdentity (heapGet s'.heap i) (heapGet s.heap i)) ∧
  ∃ news, (childRefs s'.heap).Perm (news ++ childRefs s.heap) ∧ news.Nodup ∧
    ∀ j ∈ news, s.heap.length ≤ j ∧ j < s'.heap.length

/-- Identity comparison is reflexive. -/
theorem sameIdentity_refl (a : CallChainNode) : sameIdentity a a := ⟨rfl, rfl, rfl⟩

/-- A phase that does not touch heap or cache is a separation step. -/
theorem sepStep_of_heap_eq {s s' : TraceState} (hh : s'.heap = s.heap)
    (hc : s'.functionCache = s.functionCache) : SepStep s s' := by
  refine ⟨by rw [hh], hc, fun i _ => by rw [hh]; exact sameIdentity_refl _,
    [], by simp [hh], List.nodup_nil, by simp⟩

/-- Separation is reflexive. -/
theorem sepStep_refl (s : TraceState) : SepStep s s := sepStep_of_heap_eq rfl rfl

/-- Separation composes: fresh references of the later phase are above the
intermediate heap top, fresh references of the earlier phase below it. -/
theorem sepStep_trans {s t u : TraceState} (h1 : SepStep s t) (h2 : SepStep t u) :
    SepStep s u := by
  obtain ⟨hl1, hc1, hf1, n1, hp1, hn1, hb1⟩ := h1
  obtain ⟨hl2, hc2, hf2, n2, hp2, hn2, hb2⟩ := h2
  refine ⟨hl1.trans hl2, hc2.trans hc1, ?_, n2 ++ n1, ?_, ?_, ?_⟩
  · intro i hi
    have g2 := hf2 i (lt_of_lt_of_le hi hl1)
    have g1 := hf1 i hi
    exact ⟨g2.1.trans g1.1, g2.2.1.trans g1.2.1, g2.2.2.trans g1.2.2⟩
  · have h3 := hp2.trans (List.Perm.append_left n2 hp1)
    simpa [List.append_assoc] using h3
  · refine List.Nodup.append hn2 hn1 ?_
    intro j hj2 hj1
    exact absurd (hb1 j hj1).2 (not_lt.mpr (hb2 j hj2).1)
  · intro j hj
    rcases List.mem_append.mp hj with hj | hj
    · exact ⟨hl1.trans (hb2 j hj).1, (hb2 j hj).2⟩
    · exact ⟨(hb1 j hj).1, lt_of_lt_of_le (hb1 j hj).2 hl2⟩

/-- Child references distribute over heap concatenation. -/
theorem childRefs_append (h e : List CallChainNode) :
    childRefs (h ++ e) = childRefs h ++ childRefs e := by
  simp [childRefs]

/-- Child references of one node. -/
theorem childRefs_cons (nd : CallChainNode) (t : List CallChainNode) :
    childRefs (nd :: t) = (nd.callers ++ nd.callees) ++ childRefs t := by
  simp [childRefs]

/-- Child references of a one-node heap extension. -/
theorem childRefs_singleton (nd : CallChainNode) :
    childRefs [nd] = nd.callers ++ nd.callees := by
  simp [childRefs]

/-- Placeholder nodes carry no child references. -/
theorem childRefs_placeholders : ∀ toks : List String,
    childRefs (toks.map placeholderNode) = []
  | [] => rfl
  | t :: ts => by
    rw [List.map_cons, childRefs_cons, childRefs_placeholders ts]
    rfl

/-- Overwriting a node without changing its child lists keeps the reference
multiset identical. -/
theorem childRefs_set_same : ∀ (h : List CallChainNode) (i : Nat) (nd' : CallChainNode),
    nd'.callers = (heapGet h i).callers → nd'.callees = (heapGet h i).callees →
    childRefs (h.set i nd') = childRefs h := by
  intro h
  induction h with
  | nil => intro i nd' _ _; rfl
  | cons nd t ih =>
    intro i nd' hcr hce
    cases i with
    | zero =>
      have hg : heapGet (nd :: t) 0 = nd := rfl
      rw [hg] at hcr hce
      show childRefs (nd' :: t) = childRefs (nd :: t)
      rw [childRefs_cons, childRefs_cons, hcr, hce]
    | succ i =>
      have hg : heapGet (nd :: t) (i + 1) = heapGet t i := rfl
      rw [hg] at hcr hce
      show childRefs (nd :: t.set i nd') = childRefs (nd :: t)
      rw [childRefs_cons, childRefs_cons, ih i nd' hcr hce]

/-- Overwriting a node with one extra child reference adds exactly that
reference to the heap's reference multiset. -/
theorem childRefs_set_push : ∀ (h : List CallChainNode) (i : Nat)
    (nd' : CallChainNode) (j : Nat), i < h.length →
    (nd'.callers ++ nd'.callees).Perm
      (j :: ((heapGet h i).callers ++ (heapGet h i).callees)) →
    (childRefs (h.set i nd')).Perm (j :: childRefs h) := by
  intro h
  induction h with
  | nil => intro i nd' j hi _; exact absurd hi (Nat.not_lt_zero i)
  | cons nd t ih =>
    intro i nd' j hi hperm
    cases i with
    | zero =>
      rw [show heapGet (nd :: t) 0 = nd from rfl] at hperm
      show (childRefs (nd' :: t)).Perm (j :: childRefs (nd :: t))
      rw [childRefs_cons, childRefs_cons]
      exact (hperm.append_right _).trans (List.Perm.refl _)
    | succ i =>
      have hi' : i < t.length := Nat.lt_of_succ_lt_succ hi
      rw [show heapGet (nd :: t) (i + 1) = heapGet t i from rfl] at hperm
      show (childRefs (nd :: t.set i nd')).Perm (j :: childRefs (nd :: t))
      rw [childRefs_cons, childRefs_cons]
      exact (List.Perm.append_left _ (ih i nd' j hi' hperm)).trans List.perm_middle

/-- Overwriting one node with an identity-preserving update keeps every
node's identity fields. -/
theorem sameIdentity_heapGet_set : ∀ (h : List CallChainNode) (i : Nat)
    (nd' : CallChainNode), sameIdentity nd' (heapGet h i) →
    ∀ j, sameIdentity (heapGet (h.set i nd') j) (heapGet h j) := by
  intro h
  induction h with
  | nil => intro i nd' _ j; exact sameIdentity_refl _
  | cons nd t ih =>
    intro i nd' hid j
    cases i with
    | zero =>
      cases j with
      | zero => exact hid
      | succ j => exact sameIdentity_refl _
    | succ i =>
      cases j with
      | zero => exact sameIdentity_refl _
      | succ j => exact ih i nd' hid j

/-- Depth overwrites touch neither references nor identity fields. -/
theorem setNodeDepth_facts (s : TraceState) (i d : Nat) :
    (setNodeDepth s i d).heap.length = s.heap.length ∧
    childRefs (setNodeDepth s i d).heap = childRefs s.heap ∧
    (setNodeDepth s i d).functionCache = s.functionCache ∧
    ∀ j, sameIdentity (heapGet (setNodeDepth s i d).heap j) (heapGet s.heap j) := by
  refine ⟨by simp [setNodeDepth], childRefs_set_same _ _ _ rfl rfl, rfl, ?_⟩
  exact sameIdentity_heapGet_set _ _ _ (sameIdentity_refl _)

/-- Attaching a callee adds exactly one reference and keeps identities. -/
theorem pushCallee_facts (s : TraceState) (n j : Nat) (hn : n < s.heap.length) :
    (pushCallee s n j).heap.length = s.heap.length ∧
    (childRefs (pushCallee s n j).heap).Perm (j :: childRefs s.heap) ∧
    (pushCallee s n j).functionCache = s.functionCache ∧
    ∀ i, sameIdentity (heapGet (pushCallee s n j).heap i) (heapGet s.heap i) := by
  refine ⟨by simp [pushCallee], ?_, rfl, ?_⟩
  · refine childRefs_set_push _ _ _ _ hn ?_
    have hp := List.perm_append_singleton j
      ((heapGet s.heap n).callers ++ (heapGet s.heap n).callees)
    simpa [List.append_assoc] using hp
  · exact sameIdentity_heapGet_set _ _ _ ⟨rfl, rfl, rfl⟩

/-- Attaching a caller adds exactly one reference and keeps identities. -/
theorem pushCaller_facts (s : TraceState) (n j : Nat) (hn : n < s.heap.length) :
    (pushCaller s n j).heap.length = s.heap.length ∧
    (childRefs (pushCaller s n j).heap).Perm (j :: childRefs s.heap) ∧
    (pushCaller s n j).functionCache = s.functionCache ∧
    ∀ i, sameIdentity (heapGet (pushCaller s n j).heap i) (heapGet s.heap i) := by
  refine ⟨by simp [pushCaller], ?_, rfl, ?_⟩
  · refine childRefs_set_push _ _ _ _ hn ?_
    simp
  · exact sameIdentity_heapGet_set _ _ _ ⟨rfl, rfl, rfl⟩

/-- A fold whose every step is a separation step relative to a fixed origin
produces a separation step from its starting accumulator. -/
theorem foldl_sep {α : Type} (f : TraceState → α → TraceState) (s₀ : TraceState) :
    ∀ (l : List α), (∀ b a, a ∈ l → SepStep s₀ b → SepStep b (f b a)) →
      ∀ b, SepStep s₀ b → SepStep b (l.foldl f b)
  | [], _, b, _ => sepStep_refl b
  | a :: l, h, b, hb =>
    sepStep_trans (h b a (List.mem_cons_self _ _) hb)
      (foldl_sep f s₀ l (fun b' a' ha' => h b' a' (List.mem_cons_of_mem _ ha'))
        (f b a) (sepStep_trans hb (h b a (List.mem_cons_self _ _) hb)))

/-- Allocating a fresh node, writing its depth and attaching it as a caller
of an existing node is a separation step adding exactly the new index. -/
theorem attachCaller_sep (b : TraceState) (caller : CallChainNode) (nodeId d : Nat)
    (hn : nodeId < b.heap.length) (hcr : caller.callers = []) (hce : caller.callees = []) :
    SepStep b (pushCaller (setNodeDepth (allocNode b caller).2 (allocNode b caller).1 d)
      nodeId (allocNode b caller).1) := by
  set s_a := (allocNode b caller).2 with hsa
  set s_b := setNodeDepth s_a (allocNode b caller).1 d with hsb
  have hlen_a : s_a.heap.length = b.heap.length + 1 := by simp [hsa, allocNode]
  obtain ⟨hlen_b, hcr_b, hcache_b, hid_b⟩ := setNodeDepth_facts s_a (allocNode b caller).1 d
  have hn_b : nodeId < s_b.heap.length := by
    rw [hlen_b, hlen_a]; exact Nat.lt_succ_of_lt hn
  obtain ⟨hlen_c, hcr_c, hcache_c, hid_c⟩ :=
    pushCaller_facts s_b nodeId (allocNode b caller).1 hn_b
  have hcr_a : childRefs s_a.heap = childRefs b.heap := by
    show childRefs (b.heap ++ [caller]) = childRefs b.heap
    rw [childRefs_append, childRefs_singleton, hcr, hce]
    simp
  refine ⟨?_, ?_, ?_, [(allocNode b caller).1], ?_, List.nodup_cons.mpr
    ⟨List.not_mem_nil _, List.nodup_nil⟩, ?_⟩
  · rw [hlen_c, hlen_b, hlen_a]; exact Nat.le_succ _
  · rw [hcache_c, hcache_b]; rfl
  · intro i hi
    have h1 : sameIdentity (heapGet s_a.heap i) (heapGet b.heap i) := by
      show sameIdentity (heapGet (b.heap ++ [caller]) i) (heapGet b.heap i)
      rw [heapGet_append_lt hi]
      exact sameIdentity_refl _
    have h2 := hid_b i
    have h3 := hid_c i
    exact ⟨h3.1.trans (h2.1.trans h1.1), h3.2.1.trans (h2.2.1.trans h1.2.1),
      h3.2.2.trans (h2.2.2.trans h1.2.2)⟩
  · rw [hcr_b, hcr_a] at hcr_c
    exact hcr_c
  · intro j hj
    rw [List.mem_singleton.mp hj]
    constructor
    · exact Nat.le_refl _
    · rw [hlen_c, hlen_b, hlen_a]
      exact Nat.lt_succ_self _

/-- Caller expansion is a separation step: every reference it attaches is a
freshly allocated node, each attached exactly once, and the request cache is
never touched. -/
theorem findCallers_sep (env : TraceEnv) (input : TraceCallChainInput) :
    ∀ (fuel nodeId currentDepth startTime timeout : Nat) (s : TraceState),
      nodeId < s.heap.length →
      SepStep s (findCallers env input fuel nodeId currentDepth startTime timeout s) := by
  intro fuel
  induction fuel with
  | zero => intro _ _ _ _ s _; exact sepStep_refl s
  | succ fuel ih =>
    intro nodeId currentDepth startTime timeout s hn
    rw [findCallers]
    simp only [dateNow]
    split
    · exact sepStep_of_heap_eq rfl rfl
    · split
      · exact sepStep_of_heap_eq rfl rfl
      · split
        · exact sepStep_of_heap_eq rfl rfl
        · refine sepStep_trans (s := s) ?_ (sepStep_of_heap_eq (by simp [eraseVisited]) rfl)
          refine sepStep_trans (t := addVisited { s with tick := s.tick + 1 }
            (nodeKeyOf (heapGet s.heap nodeId) currentDepth))
            (sepStep_of_heap_eq rfl rfl) ?_
          refine foldl_sep _ s _ ?_ _ (sepStep_of_heap_eq rfl rfl)
          intro b fp hfp hsb
          split
          · exact sepStep_refl b
          · refine foldl_sep _ s _ ?_ b hsb
            intro b' caller hcmem hsb'
            obtain ⟨hfr1, hfr2, hfr3⟩ := findCallersInFile_fresh env.corpus fp
              (heapGet s.heap nodeId).functionName
              (langNameOf (detectLanguage fp)) input.path caller hcmem
            have hn' : nodeId < b'.heap.length := lt_of_lt_of_le hn hsb'.1
            have hstep := attachCaller_sep b' caller nodeId (currentDepth + 1) hn' hfr1 hfr2
            split
            · exact sepStep_trans hstep (ih _ _ _ _ _ (by
                have : (allocNode b' caller).1 < (allocNode b' caller).2.heap.length := by
                  simp [allocNode]
                simpa [pushCaller, setNodeDepth] using this))
            · exact hstep

/-- A language display name that survives no file filter: the lower-cased
display name of no registry entry equals it.  Every registry display name
contains an upper-case letter and `Unknown` is capitalised, so every name the
resolver can ever store is of this kind — the case mismatch that defeats
in-corpus callee resolution. -/
def LangSafe (lang : String) : Prop :=
  ∀ info ∈ SUPPORTED_LANGUAGES, strToLower info.name ≠ lang

/-- A detected language is a registry entry. -/
theorem detectLanguage_mem {fp : String} {info : LanguageInfo}
    (h : detectLanguage fp = some info) : info ∈ SUPPORTED_LANGUAGES := by
  simp only [detectLanguage] at h
  split at h
  · cases h
  · exact List.mem_of_find?_eq_some h

/-- With a single safe language name as filter, every file is skipped. -/
theorem languagesSkip_of_langSafe {lang : String} (hLS : LangSafe lang)
    (ol : Option LanguageInfo) (hol : ∀ info, ol = some info → info ∈ SUPPORTED_LANGUAGES) :
    languagesSkip (some [lang]) ol = true := by
  unfold languagesSkip
  cases ol with
  | none => rfl
  | some info =>
    have hne := hLS info (hol info rfl)
    simp [hne]

/-- With a safe language filter the resolver's file loop finds nothing. -/
theorem findFirstDecl_skip_none {corpus : List SourceFile} {fn sp lang : String}
    (hLS : LangSafe lang) :
    ∀ files, findFirstDecl corpus fn sp (some [lang]) files = none := by
  intro files
  induction files with
  | nil => rfl
  | cons fp rest ih =>
    simp only [findFirstDecl]
    rw [languagesSkip_of_langSafe hLS (detectLanguage fp)
      (fun info h => detectLanguage_mem h)]
    simpa using ih

/-- The token loop in the regime every trace without an `external` corpus
file stays in: the cache holds only the root entry, the language filter is
safe, and the loop's own name guard protects the root name — every processed
token becomes a freshly allocated placeholder, in token order. -/
theorem resolveCalleeTokens_ext (env : TraceEnv) (rootId : Nat) (fn lang rootPath : String)
    (hLS : LangSafe lang) :
    ∀ (ts found : List String) (acc : List Nat) (s : TraceState),
      s.functionCache = [(cacheKeyOf fn rootPath, rootId)] →
      resolveCalleeTokens env fn rootPath lang ts found acc s =
        (acc ++ List.range' s.heap.length (dedupTokens fn ts found).length,
         { s with heap := s.heap ++ (dedupTokens fn ts found).map placeholderNode }) := by
  intro ts
  induction ts with
  | nil =>
    intro found acc s hc
    simp only [resolveCalleeTokens, dedupTokens, List.length_nil, List.map_nil]
    cases s
    simp
  | cons t ts ih =>
    intro found acc s hc
    simp only [resolveCalleeTokens, dedupTokens]
    by_cases hcond : (t != fn && !(found.contains t)) = true
    · simp only [hcond, if_true]
      have ht_ne : t ≠ fn := bne_iff_ne.mp (Bool.and_eq_true _ _ |>.mp hcond).1
      have hkne : (cacheKeyOf fn rootPath == cacheKeyOf t rootPath) = false := by
        rw [beq_eq_false_iff_ne]
        intro he
        exact ht_ne (cacheKeyOf_inj he).symm
      have hmiss : s.functionCache.find? (fun e => e.1 == cacheKeyOf t rootPath) = none := by
        rw [hc]
        simp [List.find?, hkne]
      have hff := findFunction_miss_none env t rootPath (some [lang]) s hmiss
        (findFirstDecl_skip_none hLS _)
      rw [hff]
      simp only [allocNode]
      rw [ih (t :: found) (acc ++ [s.heap.length])
        { s with heap := s.heap ++ [placeholderNode t] } hc]
      simp [List.range'_succ, List.append_assoc]
    · simp only [hcond, if_false]
      exact ih found acc s hc

/-- A single-file callee scan over an unreadable path does nothing. -/
theorem findCalleesInFile_none (env : TraceEnv) {fp : String} (fn lang rootPath : String)
    (s : TraceState) (h : readFile env.corpus fp = none) :
    findCalleesInFile env fp fn lang rootPath s = ([], s) := by
  unfold findCalleesInFile
  rw [h]

/-- In the no-`external`-file regime, a single-file callee scan returns a
block of freshly allocated placeholders and touches nothing else. -/
theorem findCalleesInFile_regime (env : TraceEnv) (rootId : Nat)
    (fn lang rootPath fp : String) (hLS : LangSafe lang) (s : TraceState)
    (hc : s.functionCache = [(cacheKeyOf fn rootPath, rootId)]) :
    ∃ toks : List String,
      findCalleesInFile env fp fn lang rootPath s =
        (List.range' s.heap.length toks.length,
         { s with heap := s.heap ++ toks.map placeholderNode }) := by
  unfold findCalleesInFile
  rcases hrf : readFile env.corpus fp with _ | content
  · refine ⟨[], ?_⟩
    cases s
    simp
  · simp only []
    rcases hfd : findFunctionDefinition (splitLines content) fn lang with _ | ⟨st, en⟩
    · refine ⟨[], ?_⟩
      cases s
      simp
    · exact ⟨dedupTokens fn (extractCallTokens
          (extractFunctionBody (splitLines content) st en)) [],
        resolveCalleeTokens_ext env rootId fn lang rootPath hLS _ [] [] s hc⟩

/-- Expanding a node whose path is the placeholder path reads the
`<root>/external` file; when that file does not exist the expansion returns
with heap and cache untouched. -/
theorem findCallees_ext (env : TraceEnv) (input : TraceCallChainInput)
    (Hext : readFile env.corpus (resolveFullPath "external" input.path) = none) :
    ∀ (fuel nodeId currentDepth startTime timeout : Nat) (s : TraceState),
      (heapGet s.heap nodeId).path = "external" →
      (findCallees env input fuel nodeId currentDepth startTime timeout s).heap = s.heap ∧
      (findCallees env input fuel nodeId currentDepth startTime timeout s).functionCache =
        s.functionCache := by
  intro fuel nodeId currentDepth startTime timeout s hpath
  cases fuel with
  | zero => exact ⟨rfl, rfl⟩
  | succ fuel =>
    rw [findCallees]
    simp only [dateNow]
    split
    · exact ⟨rfl, rfl⟩
    · split
      · exact ⟨rfl, rfl⟩
      · split
        · exact ⟨rfl, rfl⟩
        · rw [hpath, findCalleesInFile_none env _ _ _ _ Hext]
          exact ⟨rfl, rfl⟩

/-- Dereferencing inside the bounds hits a member. -/
theorem heapGet_mem {h : List CallChainNode} {i : Nat} (hi : i < h.length) :
    heapGet h i ∈ h := by
  unfold heapGet
  rw [List.getD_eq_getElem?_getD, List.getElem?_eq_getElem hi]
  exact List.getElem_mem hi

/-- Every index of a freshly appended placeholder block dereferences to a
placeholder. -/
theorem heapGet_placeholder_block {h : List CallChainNode} {toks : List String} {i : Nat}
    (hge : h.length ≤ i) (hlt : i < h.length + toks.length) :
    (heapGet (h ++ toks.map placeholderNode) i).path = "external" := by
  unfold heapGet
  rw [List.getD_eq_getElem?_getD, List.getElem?_append_right hge]
  have hlt' : i - h.length < (toks.map placeholderNode).length := by
    simp only [List.length_map]
    omega
  rw [List.getElem?_eq_getElem hlt']
  simp only [Option.getD_some]
  obtain ⟨t, _, hpt⟩ := List.mem_map.mp (List.getElem_mem hlt')
  rw [← hpt]
  rfl

/-- Attaching a block of placeholder callees: each fold step over a
placeholder-backed reference keeps the heap length and cache, adds exactly
its reference, and preserves identity fields. -/
theorem foldl_attach_facts (g : TraceState → Nat → TraceState) (nodeId : Nat)
    (hstep : ∀ (b : TraceState) (i : Nat), (heapGet b.heap i).path = "external" →
      nodeId < b.heap.length →
      (g b i).heap.length = b.heap.length ∧
      (childRefs (g b i).heap).Perm (i :: childRefs b.heap) ∧
      (g b i).functionCache = b.functionCache ∧
      (∀ j, sameIdentity (heapGet (g b i).heap j) (heapGet b.heap j))) :
    ∀ (ids : List Nat) (b : TraceState),
      nodeId < b.heap.length →
      (∀ i ∈ ids, (heapGet b.heap i).path = "external") →
      (ids.foldl g b).heap.length = b.heap.length ∧
      (childRefs (ids.foldl g b).heap).Perm (ids ++ childRefs b.heap) ∧
      (ids.foldl g b).functionCache = b.functionCache ∧
      ∀ j, sameIdentity (heapGet (ids.foldl g b).heap j) (heapGet b.heap j) := by
  intro ids
  induction ids with
  | nil =>
    intro b _ _
    exact ⟨rfl, by simp, rfl, fun j => sameIdentity_refl _⟩
  | cons i ids ih =>
    intro b hn hph
    simp only [List.foldl_cons]
    obtain ⟨hl1, hp1, hc1, hid1⟩ := hstep b i (hph i (List.mem_cons_self _ _)) hn
    have hph' : ∀ i' ∈ ids, (heapGet (g b i).heap i').path = "external" := by
      intro i' hi'
      rw [(hid1 i').2.1]
      exact hph i' (List.mem_cons_of_mem _ hi')
    have hn' : nodeId < (g b i).heap.length := by rw [hl1]; exact hn
    obtain ⟨hl2, hp2, hc2, hid2⟩ := ih (g b i) hn' hph'
    refine ⟨hl2.trans hl1, ?_, hc2.trans hc1, ?_⟩
    · refine hp2.trans ?_
      refine (List.Perm.append_left ids hp1).trans ?_
      exact List.perm_middle
    · intro j
      exact ⟨(hid2 j).1.trans (hid1 j).1, (hid2 j).2.1.trans (hid1 j).2.1,
        (hid2 j).2.2.trans (hid1 j).2.2⟩

/-- The callee-attachment step of `findCallees` satisfies the fold-step
contract when the attached reference is placeholder-backed. -/
theorem calleeStep_facts (env : TraceEnv) (input : TraceCallChainInput)
    (Hext : readFile env.corpus (resolveFullPath "external" input.path) = none)
    (fuel currentDepth startTime timeout nodeId : Nat) (b : TraceState) (i : Nat)
    (hph : (heapGet b.heap i).path = "external") (hn : nodeId < b.heap.length) :
    ((if currentDepth + 1 < input.maxDepth then
        findCallees env input fuel i (currentDepth + 1) startTime timeout
          (pushCallee (setNodeDepth b i (currentDepth + 1)) nodeId i)
      else pushCallee (setNodeDepth b i (currentDepth + 1)) nodeId i)).heap.length =
        b.heap.length ∧
    (childRefs ((if currentDepth + 1 < input.maxDepth then
        findCallees env input fuel i (currentDepth + 1) startTime timeout
          (pushCallee (setNodeDepth b i (currentDepth + 1)) nodeId i)
      else pushCallee (setNodeDepth b i (currentDepth + 1)) nodeId i)).heap).Perm
      (i :: childRefs b.heap) ∧
    ((if currentDepth + 1 < input.maxDepth then
        findCallees env input fuel i (currentDepth + 1) startTime timeout
          (pushCallee (setNodeDepth b i (currentDepth + 1)) nodeId i)
      else pushCallee (setNodeDepth b i (currentDepth + 1)) nodeId i)).functionCache =
        b.functionCache ∧
    ∀ j, sameIdentity (heapGet ((if currentDepth + 1 < input.maxDepth then
        findCallees env input fuel i (currentDepth + 1) startTime timeout
          (pushCallee (setNodeDepth b i (currentDepth + 1)) nodeId i)
      else pushCallee (setNodeDepth b i (currentDepth + 1)) nodeId i)).heap j)
      (heapGet b.heap j) := by
  obtain ⟨hl1, hcr1, hc1, hid1⟩ := setNodeDepth_facts b i (currentDepth + 1)
  have hn1 : nodeId < (setNodeDepth b i (currentDepth + 1)).heap.length := by
    rw [hl1]; exact hn
  obtain ⟨hl2, hp2, hc2, hid2⟩ :=
    pushCallee_facts (setNodeDepth b i (currentDepth + 1)) nodeId i hn1
  have hph2 : (heapGet (pushCallee (setNodeDepth b i (currentDepth + 1)) nodeId i).heap
      i).path = "external" := by
    rw [(hid2 i).2.1, (hid1 i).2.1]
    exact hph
  have hs3 : (if currentDepth + 1 < input.maxDepth then
        findCallees env input fuel i (currentDepth + 1) startTime timeout
          (pushCallee (setNodeDepth b i (currentDepth + 1)) nodeId i)
      else pushCallee (setNodeDepth b i (currentDepth + 1)) nodeId i).heap =
        (pushCallee (setNodeDepth b i (currentDepth + 1)) nodeId i).heap ∧
      (if currentDepth + 1 < input.maxDepth then
        findCallees env input fuel i (currentDepth + 1) startTime timeout
          (pushCallee (setNodeDepth b i (currentDepth + 1)) nodeId i)
      else pushCallee (setNodeDepth b i (currentDepth + 1)) nodeId i).functionCache =
        (pushCallee (setNodeDepth b i (currentDepth + 1)) nodeId i).functionCache := by
    split
    · exact findCallees_ext env input Hext fuel i (currentDepth + 1) startTime timeout
        _ hph2
    · exact ⟨rfl, rfl⟩
  refine ⟨?_, ?_, ?_, ?_⟩
  · rw [hs3.1, hl2, hl1]
  · rw [hs3.1, ← hcr1]
    exact hp2
  · rw [hs3.2, hc2, hc1]
  · intro j
    rw [hs3.1]
    exact ⟨(hid2 j).1.trans (hid1 j).1, (hid2 j).2.1.trans (hid1 j).2.1,
      (hid2 j).2.2.trans (hid1 j).2.2⟩

/-- Callee expansion of a well-named node in the no-`external`-file regime
is a separation step: every attached reference is a freshly allocated
placeholder node, attached exactly once. -/
theorem findCallees_root_sep (env : TraceEnv) (input : TraceCallChainInput) (rootId : Nat)
    (Hext : readFile env.corpus (resolveFullPath "external" input.path) = none) :
    ∀ (fuel nodeId currentDepth startTime timeout : Nat) (s : TraceState),
      s.functionCache = [(cacheKeyOf input.functionName input.path, rootId)] →
      nodeId < s.heap.length →
      (((heapGet s.heap nodeId).functionName = input.functionName ∧
        LangSafe (heapGet s.heap nodeId).language) ∨
        (heapGet s.heap nodeId).path = "external") →
      SepStep s (findCallees env input fuel nodeId currentDepth startTime timeout s) := by
  intro fuel nodeId currentDepth startTime timeout s hc hn hgood
  rcases hgood with ⟨hname, hLS⟩ | hext
  · cases fuel with
    | zero => exact sepStep_refl s
    | succ fuel =>
      rw [findCallees]
      simp only [dateNow]
      split
      · exact sepStep_of_heap_eq rfl rfl
      · split
        · exact sepStep_of_heap_eq rfl rfl
        · split
          · exact sepStep_of_heap_eq rfl rfl
          · obtain ⟨toks, hfc⟩ := findCalleesInFile_regime env rootId input.functionName
              (heapGet s.heap nodeId).language
              input.path (resolveFullPath (heapGet s.heap nodeId).path input.path) hLS
              (addVisited { s with tick := s.tick + 1 }
                (nodeKeyOf (heapGet s.heap nodeId) currentDepth)) hc
            rw [hname, hfc]
            simp only []
            set s₂ := addVisited { s with tick := s.tick + 1 }
              (nodeKeyOf (heapGet s.heap nodeId) currentDepth) with hs₂
            set s₃ : TraceState := { s₂ with heap := s₂.heap ++ toks.map placeholderNode }
              with hs₃
            have hheap₂ : s₂.heap = s.heap := rfl
            have hheap₃ : s₃.heap = s.heap ++ toks.map placeholderNode := by
              rw [hs₃, hheap₂]
            have hcache₃ : s₃.functionCache = s.functionCache := rfl
            have hn₃ : nodeId < s₃.heap.length := by
              rw [hheap₃, List.length_append]
              exact Nat.lt_of_lt_of_le hn (Nat.le_add_right _ _)
            have hph₃ : ∀ i ∈ List.range' s₂.heap.length toks.length,
                (heapGet s₃.heap i).path = "external" := by
              intro i hi
              have hb := List.mem_range'_1.mp hi
              rw [hheap₂] at hb
              rw [hheap₃]
              exact heapGet_placeholder_block hb.1 hb.2
            obtain ⟨hl, hperm, hcache, hid⟩ := foldl_attach_facts _ nodeId
              (fun b i hph hnb =>
                calleeStep_facts env input Hext fuel currentDepth startTime timeout
                  nodeId b i hph hnb)
              (List.range' s₂.heap.length toks.length) s₃ hn₃ hph₃
            refine ⟨?_, ?_, ?_, List.range' s₂.heap.length toks.length, ?_, ?_, ?_⟩
            · show s.heap.length ≤ (List.foldl _ s₃ _).heap.length
              rw [hl, hheap₃, List.length_append]
              exact Nat.le_add_right _ _
            · show (List.foldl _ s₃ _).functionCache = s.functionCache
              rw [hcache, hcache₃]
            · intro i hi
              have h1 := hid i
              have h2 : heapGet s₃.heap i = heapGet s.heap i := by
                rw [hheap₃]
                exact heapGet_append_lt hi
              rw [h2] at h1
              exact h1
            · refine hperm.trans ?_
              have h3 : childRefs s₃.heap = childRefs s.heap := by
                rw [hheap₃, childRefs_append, childRefs_placeholders]
                simp
              rw [h3]
            · exact List.nodup_range' _ _ 1 one_pos
            · intro j hj
              have hb := List.mem_range'_1.mp hj
              rw [hheap₂] at hb
              refine ⟨hb.1, ?_⟩
              show j < (List.foldl _ s₃ _).heap.length
              rw [hl, hheap₃, List.length_append, List.length_map]
              exact hb.2
  · obtain ⟨hh, hcc⟩ := findCallees_ext env input Hext fuel nodeId currentDepth startTime
      timeout s hext
    exact sepStep_of_heap_eq hh hcc

/-- Every registry display name contains an upper-case letter, so no
lower-cased display name collides with it: the resolver-stored names all
defeat the language filter of a later in-corpus lookup. -/
theorem langSafe_registry : ∀ info ∈ SUPPORTED_LANGUAGES, LangSafe info.name := by
  unfold LangSafe
  decide

/-- `Unknown` (the fallback display name) is also safe. -/
theorem langSafe_unknown : LangSafe "Unknown" := by
  unfold LangSafe
  decide

/-- A separation step from a one-node heap with no references yields a
reference list that is duplicate-free and avoids the root index. -/
theorem sepStep_conclusion {s₃ X : TraceState} (h : SepStep s₃ X)
    (hcr : childRefs s₃.heap = []) (hlen : 0 < s₃.heap.length) :
    (childRefs X.heap).Nodup ∧ 0 ∉ childRefs X.heap := by
  obtain ⟨hl, hc, hf, news, hperm, hnodup, hbound⟩ := h
  rw [hcr, List.append_nil] at hperm
  constructor
  · exact (hperm.nodup_iff).mpr hnodup
  · intro hmem
    have hmem' := hperm.subset hmem
    have hb := hbound 0 hmem'
    omega

/-- C2 (amended): provided no corpus file exists at `<rootPath>/external` —
the path every placeholder node carries — a finished trace started on a
fresh request state attaches every node reference exactly once: the child
reference lists over the whole result heap are pairwise disjoint and never
mention the traversal root, so no two tree positions share a node object and
no node aliases one of its ancestors.  (With such a file present the request
cache can hand the traversal root back as a callee of a descendant: see the
counterexample.) -/
theorem c2_exclusive_ownership_without_external_file (env : TraceEnv)
    (input : TraceCallChainInput)
    (Hext : readFile env.corpus (resolveFullPath "external" input.path) = none)
    (rootId : Nat) (s' : TraceState)
    (hrun : traceCallChain env input initState = (some rootId, s')) :
    (childRefs s'.heap).Nodup ∧ rootId ∉ childRefs s'.heap := by
  unfold traceCallChain at hrun
  rcases hfd : findFirstDecl env.corpus input.functionName input.path input.languages
      (getAllFiles env.corpus input.path
        (Option.map getExtensionsForLanguages input.languages)) with _ | nd
  · rw [findFunction_miss_none env input.functionName input.path input.languages initState
      rfl hfd] at hrun
    simp at hrun
  · rw [findFunction_miss_found env input.functionName input.path input.languages initState
      nd rfl hfd] at hrun
    simp only [dateNow, initState, List.nil_append, List.length_nil, Nat.zero_add,
      Prod.mk.injEq, Option.some.injEq] at hrun
    obtain ⟨hrid, hst⟩ := hrun
    subst hrid
    subst hst
    obtain ⟨h1, hcrnd, hcend, -, hlang⟩ := findFirstDecl_shape hfd
    have hLSnd : LangSafe nd.language := by
      rcases hlang with ⟨info, hmem, heq⟩ | hunk
      · rw [heq]; exact langSafe_registry info hmem
      · rw [hunk]; exact langSafe_unknown
    set s₃ : TraceState := ⟨[nd], [(cacheKeyOf input.functionName input.path, 0)], [], 1⟩
      with hs₃
    have hlen₃ : 0 < s₃.heap.length := by rw [hs₃]; simp
    have hcache₃ : s₃.functionCache = [(cacheKeyOf input.functionName input.path, 0)] := rfl
    have hnd₀ : heapGet s₃.heap 0 = nd := rfl
    have hA : SepStep s₃ (if input.direction = Direction.callers ∨
        input.direction = Direction.both then
        findCallers env input (input.maxDepth + 1) 0 0 (env.clock 0) 30000 s₃ else s₃) := by
      split
      · exact findCallers_sep env input (input.maxDepth + 1) 0 0 (env.clock 0) 30000 s₃ hlen₃
      · exact sepStep_refl s₃
    set s₄ := (if input.direction = Direction.callers ∨
        input.direction = Direction.both then
        findCallers env input (input.maxDepth + 1) 0 0 (env.clock 0) 30000 s₃ else s₃)
      with hs₄
    have hB : SepStep s₄ (if input.direction = Direction.callees ∨
        input.direction = Direction.both then
        findCallees env input (input.maxDepth + 1) 0 0 (env.clock 0) 30000 s₄ else s₄) := by
      split
      · refine findCallees_root_sep env input 0 Hext (input.maxDepth + 1) 0 0 (env.clock 0)
          30000 s₄ (hA.2.1.trans hcache₃) (lt_of_lt_of_le hlen₃ hA.1) ?_
        left
        have hfield := hA.2.2.1 0 hlen₃
        rw [hnd₀] at hfield
        exact ⟨hfield.1.trans h1, by rw [hfield.2.2]; exact hLSnd⟩
      · exact sepStep_refl s₄
    refine sepStep_conclusion (sepStep_trans hA hB) ?_ hlen₃
    show childRefs [nd] = []
    rw [childRefs_singleton, hcrnd, hcend]
    rfl

/-- Witness for the amended C2 theorem: the scenario corpus has no
`p/external` file, and the finished trace's reference lists are
duplicate-free and never mention the traversal root. -/
theorem c2_exclusive_ownership_without_external_file_witness :
    readFile cyclicEnv.corpus (resolveFullPath "external" calleeTraceInput.path) = none ∧
    (childRefs (traceCallChain cyclicEnv calleeTraceInput initState).2.heap).Nodup ∧
    0 ∉ childRefs (traceCallChain cyclicEnv calleeTraceInput initState).2.heap := by
  have h1 : (traceCallChain cyclicEnv calleeTraceInput initState).1 = some 0 := by decide
  have hrun : traceCallChain cyclicEnv calleeTraceInput initState =
      (some 0, (traceCallChain cyclicEnv calleeTraceInput initState).2) := by
    rw [← h1]
  have h := c2_exclusive_ownership_without_external_file cyclicEnv calleeTraceInput
    (by decide) 0 (traceCallChain cyclicEnv calleeTraceInput initState).2 hrun
  exact ⟨by decide, h.1, h.2⟩

/-- C9: for a function name absent from the corpus (it occurs in no file
content, not even as a case-insensitive substring, so no declaration pattern
can match it), a request-fresh trace returns no call chain — the not-found
outcome — while leaving the state untouched, and the report pipeline renders
the same not-found document it renders for an explicit `none`: the request
completes normally as a well-formed negative result. -/
theorem c9_absent_function_not_found (env : TraceEnv) (input : TraceCallChainInput)
    (s : TraceState) (hcache : s.functionCache = [])
    (habs : ∀ f ∈ env.corpus, containsSubCI input.functionName.data f.content.data = false) :
    (traceCallChain env input s).1 = none ∧ (traceCallChain env input s).2 = s ∧
      ∀ fuel, generateReport (traceCallChain env input s).2.heap fuel
          (traceCallChain env input s).1 input =
        generateReport s.heap fuel none input := by
  have hmiss : s.functionCache.find?
      (fun e => e.1 == cacheKeyOf input.functionName input.path) = none := by
    rw [hcache]; rfl
  have hff : findFunction env input.functionName input.path input.languages s = (none, s) :=
    findFunction_miss_none env input.functionName input.path input.languages s hmiss
      (findFirstDecl_none_of_absent habs _)
  have htr : traceCallChain env input s = (none, s) := by
    unfold traceCallChain
    rw [hff]
  rw [htr]
  exact ⟨rfl, rfl, fun fuel => rfl⟩

/-- Witness for C9: the name `zeta` occurs nowhere in the keyword corpus, so
the trace over it returns no chain, keeps the fresh state, and reports the
not-found document. -/
theorem c9_absent_function_not_found_witness :
    (initState.functionCache = [] ∧
      (keywordEnv.corpus.all
        (fun f => containsSubCI "zeta".data f.content.data == false)) = true) ∧
    (traceCallChain keywordEnv ⟨"zeta", "p", Direction.both, 3, none, false⟩ initState).1
        = none ∧
    (traceCallChain keywordEnv ⟨"zeta", "p", Direction.both, 3, none, false⟩ initState).2
        = initState ∧
    generateReport (traceCallChain keywordEnv
        ⟨"zeta", "p", Direction.both, 3, none, false⟩ initState).2.heap 4
      (traceCallChain keywordEnv
        ⟨"zeta", "p", Direction.both, 3, none, false⟩ initState).1
      ⟨"zeta", "p", Direction.both, 3, none, false⟩ =
      generateReport initState.heap 4 none ⟨"zeta", "p", Direction.both, 3, none, false⟩ := by
  have h := c9_absent_function_not_found keywordEnv
    ⟨"zeta", "p", Direction.both, 3, none, false⟩ initState rfl (by decide)
  exact ⟨⟨rfl, by decide⟩, h.1, h.2.1, h.2.2 4⟩

/-- Witness for C10: in a corpus where `f` calls itself and `g` calls `f`,
the caller list for `f` contains the `g` node, and the theorem yields that
its name is not `f`. -/
theorem c10_self_call_sites_produce_no_caller_edge_witness :
    (⟨"g", "m.js", 1, "function g(){ f(); }", "JavaScript", [], [], 0⟩ : CallChainNode) ∈
      findCallersInFile recursiveCallerCorpus "p/m.js" "f" "JavaScript" "p" ∧
    (⟨"g", "m.js", 1, "function g(){ f(); }", "JavaScript", [], [], 0⟩ :
        CallChainNode).functionName ≠ "f" :=
  ⟨by decide,
   c10_self_call_sites_produce_no_caller_edge recursiveCallerCorpus "p/m.js" "f" "JavaScript"
     "p" _ (by decide)⟩

end Navi
